import Mathlib

/-!
Formal model of the cruise-planner day-plan generation pipeline.

The Python sources under `backend/` are shallowly embedded here:
Python `str` values become `List Char`, `dict`s become insertion-ordered
association lists, raised exceptions become `Option`/`Except` error values.
The library functions of `urllib.parse` and `json` that the code calls are
modelled after the CPython implementations, restricted to the behaviour the
embedded code can observe (ASCII case mapping for `str.lower`, UTF-8
percent-decoding with replacement on invalid sequences).
-/

set_option maxRecDepth 8000

/-- Python strings are modelled as lists of unicode code points. -/
abbrev Str := List Char

/-- Convert a Lean string literal to the model representation. -/
def str (s : String) : Str := s.data

/-- Characters stripped by Python `str.strip()` with no argument: the code
    points for which `str.isspace()` holds. -/
def pyIsSpace (c : Char) : Bool :=
  (0x09 ≤ c.toNat && c.toNat ≤ 0x0d) || c = ' ' ||
    (0x1c ≤ c.toNat && c.toNat ≤ 0x1f) || c.toNat = 0x85 || c.toNat = 0xa0 ||
    c.toNat = 0x1680 || (0x2000 ≤ c.toNat && c.toNat ≤ 0x200a) ||
    c.toNat = 0x2028 || c.toNat = 0x2029 || c.toNat = 0x202f ||
    c.toNat = 0x205f || c.toNat = 0x3000

/-- Python `str.lstrip()`. -/
def lstrip (s : Str) : Str := s.dropWhile pyIsSpace

/-- Python `str.rstrip()`. -/
def rstrip (s : Str) : Str := (s.reverse.dropWhile pyIsSpace).reverse

/-- Python `str.strip()`. -/
def strip (s : Str) : Str := rstrip (lstrip s)

/-- Python `str.lower()` restricted to ASCII case mapping. -/
def toLowerStr (s : Str) : Str := s.map Char.toLower

/-- Split at the first occurrence of `c`: Python `s.split(c, 1)` when `c` occurs,
    `none` when it does not. -/
def splitFirst (c : Char) : Str → Option (Str × Str)
  | [] => none
  | x :: xs =>
    if x = c then some ([], xs)
    else (splitFirst c xs).map (fun p => (x :: p.1, p.2))

/-- Split at the last occurrence of `c` (Python `s.rsplit(c, 1)` when present). -/
def splitLast (c : Char) (s : Str) : Option (Str × Str) :=
  match splitFirst c s.reverse with
  | none => none
  | some (a, b) => some (b.reverse, a.reverse)

/-- Python `s.split(c)` without maxsplit on a (possibly empty) string:
    `"".split(c)` gives `[""]`. -/
def splitAll (sep : Char) : Str → List Str
  | [] => [[]]
  | c :: rest =>
    if c = sep then [] :: splitAll sep rest
    else
      match splitAll sep rest with
      | [] => [[c]]
      | x :: xs => (c :: x) :: xs

/-- Python `s.replace(a, b)` for single characters. -/
def replaceChar (a b : Char) (s : Str) : Str := s.map (fun c => if c = a then b else c)

/-- Process-wide configuration read through `os.environ.get(name, "")`:
    an unset variable is observationally the empty string for this code. -/
structure Env where
  VIATOR_AFFILIATE_ID : Str
  GETYOURGUIDE_AFFILIATE_ID : Str
  KLOOK_AFFILIATE_ID : Str
  TRIPADVISOR_AFFILIATE_ID : Str
  BOOKING_AFFILIATE_ID : Str
  GROQ_API_KEY : Str
deriving DecidableEq

/-- The `affiliate_partners` table built inside `get_affiliate_config`
    (src/backend/affiliate_config.py lines 31-53), in insertion order. -/
def affiliate_partners (env : Env) : List (Str × List (Str × Str)) :=
  [ (str "viator.com",
      [(str "aid", env.VIATOR_AFFILIATE_ID),
       (str "mcid", str "cruise-planner-app")]),
    (str "getyourguide.com",
      [(str "partner_id", env.GETYOURGUIDE_AFFILIATE_ID),
       (str "utm_source", str "cruise-planner"),
       (str "utm_medium", str "affiliate")]),
    (str "klook.com",
      [(str "affiliate_id", env.KLOOK_AFFILIATE_ID),
       (str "source", str "cruise-planner")]),
    (str "tripadvisor.com",
      [(str "pid", env.TRIPADVISOR_AFFILIATE_ID),
       (str "source", str "cruise-planner")]),
    (str "booking.com",
      [(str "aid", env.BOOKING_AFFILIATE_ID),
       (str "label", str "cruise-planner-booking")]) ]

/-- `get_affiliate_config` (affiliate_config.py lines 17-60): the first partner
    whose domain equals the given domain or is a dot-delimited suffix of it. -/
def get_affiliate_config (env : Env) (domain : Str) : Option (List (Str × Str)) :=
  (affiliate_partners env).findSome? fun pc =>
    if domain = pc.1 || ('.' :: pc.1).isSuffixOf domain then some pc.2 else none

/-- Characters allowed in a URL scheme (`urllib.parse.scheme_chars`):
    ASCII letters, digits, and the three punctuation characters. -/
def isSchemeChar (c : Char) : Bool :=
  c.isAlpha || c.isDigit || c = '+' || c = '-' || c = '.'

/-- Is `c` an ASCII hex digit (a key of `_hextobyte`). -/
def isHexDigitPy (c : Char) : Bool :=
  c.isDigit || ('A' ≤ c && c ≤ 'F') || ('a' ≤ c && c ≤ 'f')

/-- Value of an ASCII hex digit. -/
def hexVal (c : Char) : Nat :=
  if c.isDigit then c.toNat - 0x30
  else if 'a' ≤ c && c ≤ 'f' then c.toNat - 0x61 + 10
  else c.toNat - 0x41 + 10

/-- `urlsplit` first strips leading C0 control characters and spaces
    (`_WHATWG_C0_CONTROL_OR_SPACE`). -/
def lstripControl (s : Str) : Str := s.dropWhile (fun c => c.toNat ≤ 0x20)

/-- `urlsplit` removes every tab, carriage return and newline from the URL
    before parsing (`_UNSAFE_URL_BYTES_TO_REMOVE`). -/
def removeTabsNewlines (s : Str) : Str :=
  s.filter (fun c => !(c = '\t' || c = '\r' || c = '\n'))

/-- `_check_bracketed_host`, passed the text between `[` and `]`: an
    IPvFuture host must match `v[hexdigits]+\..+`; otherwise the host must be
    an IPv6 address (`ipaddress.ip_address` accepts it and it is not IPv4) —
    full IPv6 grammar is not reproduced, a colon being required instead,
    which agrees with CPython on every syntactically plausible host. -/
def check_bracketed_host (h : Str) : Bool :=
  match h with
  | 'v' :: rest =>
    (rest.takeWhile isHexDigitPy) ≠ [] &&
      (match rest.dropWhile isHexDigitPy with
       | '.' :: tail => tail ≠ []
       | _ => false)
  | _ => h.contains ':' && h ≠ []

/-- Scheme extraction step of `urlsplit`: the text before the first colon is a
    scheme when it is nonempty, starts with an ASCII letter and consists of
    scheme characters; it is lower-cased. -/
def splitScheme (url : Str) : Str × Str :=
  match splitFirst ':' url with
  | none => ([], url)
  | some (before, after) =>
    match before with
    | [] => ([], url)
    | c :: cs =>
      if c.isAlpha && (c :: cs).all isSchemeChar then (toLowerStr (c :: cs), after)
      else ([], url)

/-- Is `c` one of the three characters that terminate a netloc. -/
def isNetlocEnd (c : Char) : Bool := c = '/' || c = '?' || c = '#'

/-- `_splitnetloc`: the netloc runs to the first of `/`, `?`, `#`. -/
def splitNetloc (s : Str) : Str × Str :=
  (s.takeWhile (fun c => !isNetlocEnd c), s.dropWhile (fun c => !isNetlocEnd c))

/-- Result of `urllib.parse.urlsplit`. -/
structure SplitResult where
  scheme : Str
  netloc : Str
  path : Str
  query : Str
  fragment : Str
deriving DecidableEq, Repr

/-- `netloc.partition("[")[2].partition("]")[0]`: the text between the first
    `[` and the following `]`. -/
def bracketedHostOf (netloc : Str) : Str :=
  match splitFirst '[' netloc with
  | none => []
  | some p =>
    match splitFirst ']' p.2 with
    | none => p.2
    | some q => q.1

/-- `urllib.parse.urlsplit` (CPython 3.11) with `allow_fragments=True` and no
    default scheme. `none` models the `ValueError` raised on a netloc with
    unbalanced square brackets or an invalid bracketed host
    (`_checknetloc`'s NFKC check on non-ASCII netlocs is not modelled). -/
def urlsplit (url0 : Str) : Option SplitResult :=
  let url1 := removeTabsNewlines (lstripControl url0)
  let sp := splitScheme url1
  let scheme := sp.1
  let nl :=
    if (str "//").isPrefixOf sp.2 then splitNetloc (sp.2.drop 2) else ([], sp.2)
  let netloc := nl.1
  if (netloc.contains '[' && !netloc.contains ']') ||
     (netloc.contains ']' && !netloc.contains '[') then none
  else if netloc.contains '[' && netloc.contains ']' &&
      !check_bracketed_host (bracketedHostOf netloc) then none
  else
    let fr :=
      match splitFirst '#' nl.2 with
      | some p => (p.1, p.2)
      | none => (nl.2, [])
    let pq :=
      match splitFirst '?' fr.1 with
      | some p => (p.1, p.2)
      | none => (fr.1, [])
    some ⟨scheme, netloc, pq.1, pq.2, fr.2⟩

/-- `urllib.parse._splitparams`: split at the first `;` of the last path
    segment (`url.find(";", url.rfind("/"))`). -/
def splitparams (url : Str) : Str × Str :=
  if url.contains '/' then
    match splitLast '/' url with
    | none => (url, [])
    | some (before, seg) =>
      match splitFirst ';' seg with
      | none => (url, [])
      | some (segA, segB) => (before ++ '/' :: segA, segB)
  else
    match splitFirst ';' url with
    | none => (url, [])
    | some (a, b) => (a, b)

/-- Result of `urllib.parse.urlparse`. -/
structure ParseResult where
  scheme : Str
  netloc : Str
  path : Str
  params : Str
  query : Str
  fragment : Str
deriving DecidableEq, Repr

/-- `urllib.parse.uses_params`. -/
def uses_params : List Str :=
  [[], str "ftp", str "hdl", str "prospero", str "http", str "imap",
   str "https", str "shttp", str "rtsp", str "rtsps", str "rtspu", str "sip",
   str "sips", str "mms", str "sftp", str "tel"]

/-- The params gate of `urlparse`: split only for a scheme in `uses_params`
    and a path containing `;`. -/
def splitParamsGate (scheme path : Str) : Str × Str :=
  if uses_params.contains scheme && path.contains ';' then splitparams path
  else (path, [])

/-- `urllib.parse.urlparse`: `urlsplit` plus the params split. -/
def urlparse (url : Str) : Option ParseResult :=
  (urlsplit url).map fun r =>
    let pp := splitParamsGate r.scheme r.path
    ⟨r.scheme, r.netloc, pp.1, pp.2, r.query, r.fragment⟩

/-- `urllib.parse.uses_netloc`. -/
def uses_netloc : List Str :=
  [[], str "ftp", str "http", str "gopher", str "nntp", str "telnet",
   str "imap", str "wais", str "file", str "mms", str "https", str "shttp",
   str "snews", str "prospero", str "rtsp", str "rtsps", str "rtspu",
   str "rsync", str "svn", str "svn+ssh", str "sftp", str "nfs", str "git",
   str "git+ssh", str "ws", str "wss"]

/-- `urllib.parse.urlunsplit` (CPython 3.11). -/
def urlunsplit (scheme netloc path query fragment : Str) : Str :=
  let u1 :=
    if netloc ≠ [] ∨
        (scheme ≠ [] ∧ uses_netloc.contains scheme = true ∧
          ¬(str "//").isPrefixOf path = true) then
      (str "//") ++ netloc ++
        (if path ≠ [] ∧ path.head? ≠ some '/' then '/' :: path else path)
    else path
  let u2 := if scheme ≠ [] then scheme ++ ':' :: u1 else u1
  let u3 := if query ≠ [] then u2 ++ '?' :: query else u2
  if fragment ≠ [] then u3 ++ '#' :: fragment else u3

/-- Rejoin path and params (`urlunparse` does this before `urlunsplit`). -/
def joinParams (path params : Str) : Str :=
  if params ≠ [] then path ++ ';' :: params else path

/-- `urllib.parse.urlunparse`. -/
def urlunparse (r : ParseResult) : Str :=
  urlunsplit r.scheme r.netloc (joinParams r.path r.params) r.query r.fragment

/-- UTF-8 encoding of one code point (a `Char` is a valid non-surrogate scalar,
    so `str.encode("utf-8")` cannot raise on it). -/
def utf8EncodeChar (c : Char) : List Nat :=
  let n := c.toNat
  if n < 0x80 then [n]
  else if n < 0x800 then [0xC0 + n / 64, 0x80 + n % 64]
  else if n < 0x10000 then [0xE0 + n / 4096, 0x80 + n / 64 % 64, 0x80 + n % 64]
  else [0xF0 + n / 262144, 0x80 + n / 4096 % 64, 0x80 + n / 64 % 64, 0x80 + n % 64]

/-- `s.encode("utf-8")` as a byte list. -/
def utf8Encode (s : Str) : List Nat := (s.map utf8EncodeChar).flatten

/-- U+FFFD, produced by `bytes.decode("utf-8", errors="replace")`. -/
def replacementChar : Char := '�'

/-- Is `b` a UTF-8 continuation byte. -/
def isCont (b : Nat) : Bool := 0x80 ≤ b && b ≤ 0xBF

/-- Lower bound of the first continuation byte for lead byte `b`
    (excludes overlong encodings). -/
def cont1Lo (b : Nat) : Nat := if b = 0xE0 then 0xA0 else if b = 0xF0 then 0x90 else 0x80

/-- Upper bound of the first continuation byte for lead byte `b`
    (excludes surrogates and code points above U+10FFFF). -/
def cont1Hi (b : Nat) : Nat := if b = 0xED then 0x9F else if b = 0xF4 then 0x8F else 0xBF

/-- Continuation bytes expected after a valid lead byte. -/
def utf8Need (lead : Nat) : Nat :=
  if lead ≤ 0xDF then 1 else if lead ≤ 0xEF then 2 else 3

/-- Payload bits of a valid lead byte. -/
def utf8Base (lead : Nat) : Nat :=
  if lead ≤ 0xDF then lead - 0xC0 else if lead ≤ 0xEF then lead - 0xE0 else lead - 0xF0

/-- Scalar value of a complete sequence. -/
def utf8Acc (lead : Nat) (conts : List Nat) : Nat :=
  conts.foldl (fun a b => a * 64 + (b - 0x80)) (utf8Base lead)

/-- Is `b` acceptable as continuation number `k` of a sequence led by `lead`
    (the first continuation excludes overlong encodings, surrogates and
    values above U+10FFFF). -/
def utf8ContOk (lead k b : Nat) : Bool :=
  if k = 0 then decide (cont1Lo lead ≤ b) && decide (b ≤ cont1Hi lead) else isCont b

/-- Is `b` a valid lead byte of a multi-byte sequence. -/
def utf8IsLead (b : Nat) : Bool :=
  (0xC2 ≤ b && b ≤ 0xDF) || (0xE0 ≤ b && b ≤ 0xEF) || (0xF0 ≤ b && b ≤ 0xF4)

/-- `bytes.decode("utf-8", errors="replace")` as a byte-at-a-time machine whose
    state is the pending lead byte with the continuations read so far. Valid
    sequences decode exactly; on an invalid or truncated sequence each pending
    byte yields one replacement character and scanning resumes at the current
    byte (the maximal-subpart grouping of CPython may merge some replacement
    characters, which no caller in the embedded code observes). -/
def utf8DecodeAux : Option (Nat × List Nat) → List Nat → Str
  | none, [] => []
  | some p, [] => List.replicate (p.2.length + 1) replacementChar
  | none, b :: rest =>
    if b < 0x80 then Char.ofNat b :: utf8DecodeAux none rest
    else if utf8IsLead b then utf8DecodeAux (some (b, [])) rest
    else replacementChar :: utf8DecodeAux none rest
  | some (lead, conts), b :: rest =>
    if utf8ContOk lead conts.length b then
      if conts.length + 1 = utf8Need lead then
        Char.ofNat (utf8Acc lead (conts ++ [b])) :: utf8DecodeAux none rest
      else utf8DecodeAux (some (lead, conts ++ [b])) rest
    else
      List.replicate (conts.length + 1) replacementChar ++
        (if b < 0x80 then Char.ofNat b :: utf8DecodeAux none rest
         else if utf8IsLead b then utf8DecodeAux (some (b, [])) rest
         else replacementChar :: utf8DecodeAux none rest)

/-- `bytes.decode("utf-8", errors="replace")`. -/
def utf8Decode (bs : List Nat) : Str := utf8DecodeAux none bs

/-- Bytes never percent-encoded by `urllib.parse.quote`
    (`_ALWAYS_SAFE`: ASCII alphanumerics and `_.-~`; `urlencode` passes
    `safe=""` so nothing else is safe). -/
def alwaysSafeByte (b : Nat) : Bool :=
  (0x41 ≤ b && b ≤ 0x5A) || (0x61 ≤ b && b ≤ 0x7A) || (0x30 ≤ b && b ≤ 0x39) ||
    b = 0x5F || b = 0x2E || b = 0x2D || b = 0x7E

/-- Upper-case hex digit of `n < 16`, as used by `quote`. -/
def hexDigit (n : Nat) : Char :=
  if n < 10 then Char.ofNat (0x30 + n) else Char.ofNat (0x41 + (n - 10))

/-- One byte under `quote_plus` with `safe=""`: safe bytes verbatim, the space
    as `+`, everything else as `%XX` (this is `quote(s, safe=" ")` followed by
    replacing spaces with `+`, fused into one pass). -/
def quotePlusByte (b : Nat) : Str :=
  if alwaysSafeByte b then [Char.ofNat b]
  else if b = 0x20 then ['+']
  else ['%', hexDigit (b / 16), hexDigit (b % 16)]

/-- `urllib.parse.quote_plus` with `safe=""` (the `quote_via` of `urlencode`). -/
def quote_plus (s : Str) : Str := ((utf8Encode s).map quotePlusByte).flatten

/-- `urllib.parse.unquote_to_bytes` on ASCII text, as a character-at-a-time
    machine equivalent to the split-on-`%` loop of CPython: the state records
    whether a `%` (and one hex digit) is pending. `%XX` with two hex digits
    becomes one byte; a `%` not followed by two hex digits stays literal along
    with the characters after it; every other character contributes its code. -/
def unquoteToBytesAux : Option (Option Char) → Str → List Nat
  | none, [] => []
  | some none, [] => [0x25]
  | some (some c1), [] => [0x25, c1.toNat]
  | none, c :: rest =>
    if c = '%' then unquoteToBytesAux (some none) rest
    else c.toNat :: unquoteToBytesAux none rest
  | some none, c :: rest =>
    if isHexDigitPy c then unquoteToBytesAux (some (some c)) rest
    else if c = '%' then 0x25 :: unquoteToBytesAux (some none) rest
    else 0x25 :: c.toNat :: unquoteToBytesAux none rest
  | some (some c1), c :: rest =>
    if isHexDigitPy c then (16 * hexVal c1 + hexVal c) :: unquoteToBytesAux none rest
    else if c = '%' then 0x25 :: c1.toNat :: unquoteToBytesAux (some none) rest
    else 0x25 :: c1.toNat :: c.toNat :: unquoteToBytesAux none rest

/-- `urllib.parse.unquote_to_bytes` on ASCII text. -/
def unquoteToBytes (s : Str) : List Nat := unquoteToBytesAux none s

/-- Is `c` an ASCII character (matched by `_asciire` in `unquote`). -/
def isAsciiChar (c : Char) : Bool := c.toNat ≤ 0x7F

/-- `urllib.parse.unquote` with UTF-8 and `errors="replace"`: maximal ASCII
    runs go through `unquote_to_bytes` and UTF-8 decoding, non-ASCII
    characters pass through unchanged. `acc` collects the current ASCII run. -/
def unquoteAux (acc : Str) : Str → Str
  | [] => utf8Decode (unquoteToBytes acc)
  | c :: rest =>
    if isAsciiChar c then unquoteAux (acc ++ [c]) rest
    else utf8Decode (unquoteToBytes acc) ++ c :: unquoteAux [] rest

/-- `urllib.parse.unquote` with UTF-8 and `errors="replace"`. -/
def unquote (s : Str) : Str := unquoteAux [] s

/-- One field of `parse_qsl` with `keep_blank_values=True`: split at the first
    `=` (a missing `=` yields a blank value), then `+` becomes a space and
    percent-sequences are decoded, for the name and the value alike. -/
def parseQslField (nv : Str) : Str × Str :=
  let p := match splitFirst '=' nv with
    | some q => q
    | none => (nv, [])
  (unquote (replaceChar '+' ' ' p.1), unquote (replaceChar '+' ' ' p.2))

/-- `urllib.parse.parse_qsl(qs, keep_blank_values=True)`: split the query on
    `&`, skip empty fields, decode each remaining field. -/
def parse_qsl (qs : Str) : List (Str × Str) :=
  let fields := if qs = [] then [] else splitAll '&' qs
  fields.filterMap fun nv => if nv = [] then none else some (parseQslField nv)

/-- Append a value to the entry of `k` in an insertion-ordered dict of lists
    (`parsed_result[name].append(value)` after `setdefault`). -/
def dictAppend (d : List (Str × List Str)) (k : Str) (v : Str) :
    List (Str × List Str) :=
  match d with
  | [] => [(k, [v])]
  | kv :: rest =>
    if kv.1 = k then (kv.1, kv.2 ++ [v]) :: rest else kv :: dictAppend rest k v

/-- `urllib.parse.parse_qs(qs, keep_blank_values=True)` as an
    insertion-ordered dict from names to value lists. -/
def parse_qs (qs : Str) : List (Str × List Str) :=
  (parse_qsl qs).foldl (fun d kv => dictAppend d kv.1 kv.2) []

/-- The flattening comprehension of `add_affiliate_params`
    (affiliate_config.py lines 133-135): each value list is replaced by its
    first element. -/
def flat_params_of (d : List (Str × List Str)) : List (Str × Str) :=
  d.map fun kv => (kv.1, kv.2.headD [])

/-- Python `key in dict` for an association list. -/
def dictContains (d : List (Str × Str)) (k : Str) : Bool :=
  d.any fun kv => kv.1 = k

/-- Python `dict[k]` as an optional lookup. -/
def dictGet (d : List (Str × Str)) (k : Str) : Option Str :=
  (d.find? fun kv => kv.1 = k).map (·.2)

/-- The parameter-adding loop of `add_affiliate_params` (lines 137-140):
    assign each active parameter not already present; a new dict key is
    appended at the end in insertion order. -/
def addMissingParams (flat : List (Str × Str)) : List (Str × Str) → List (Str × Str)
  | [] => flat
  | kv :: rest =>
    addMissingParams (if dictContains flat kv.1 then flat else flat ++ [kv]) rest

/-- `urllib.parse.urlencode` on a dict of strings (default `quote_via`,
    i.e. `quote_plus`). -/
def urlencode (d : List (Str × Str)) : Str :=
  (str "&").intercalate (d.map fun kv => quote_plus kv.1 ++ '=' :: quote_plus kv.2)

/-- The active-parameter filter of `add_affiliate_params` (lines 117-120):
    keep parameters whose value is truthy and not whitespace-only. -/
def filterActive (cfg : List (Str × Str)) : List (Str × Str) :=
  cfg.filter fun kv => !kv.2.isEmpty && !(strip kv.2).isEmpty

/-- `get_domain_from_url` (affiliate_config.py lines 63-89): lower-cased
    netloc with a leading `www.` stripped; `none` on an empty URL, an empty
    netloc, or a parse exception. -/
def get_domain_from_url (url : Str) : Option Str :=
  if url = [] then none
  else
    match urlparse url with
    | none => none
    | some parsed =>
      let domain := toLowerStr parsed.netloc
      if domain = [] then none
      else some (if (str "www.").isPrefixOf domain then domain.drop 4 else domain)

/-- `add_affiliate_params` (affiliate_config.py lines 92-161). -/
def add_affiliate_params (env : Env) (url : Str) : Str :=
  if url = [] then url
  else
    match get_domain_from_url url with
    | none => url
    | some domain =>
      match get_affiliate_config env domain with
      | none => url
      | some cfg =>
        let active := filterActive cfg
        if active = [] then url
        else
          match urlparse url with
          | none => url
          | some parsed =>
            let flat := flat_params_of (parse_qs parsed.query)
            let flat2 := addMissingParams flat active
            let newQuery := urlencode flat2
            urlunparse
              ⟨parsed.scheme, parsed.netloc, parsed.path, parsed.params,
                newQuery, parsed.fragment⟩

/-- Values produced by `json.loads`. Integer literals become `jint`; literals
    with a fraction or exponent become `jfloat` carrying the literal text
    (binary floating point is not modelled; no embedded property inspects a
    float's numeric value). Objects are insertion-ordered dicts. -/
inductive JsonVal where
  | jnull
  | jbool (b : Bool)
  | jint (n : Int)
  | jfloat (lit : Str)
  | jstr (s : Str)
  | jarr (xs : List JsonVal)
  | jobj (kvs : List (Str × JsonVal))

/-- JSON whitespace accepted between tokens. -/
def jsonSkipWs (s : Str) : Str :=
  s.dropWhile fun c => c = ' ' || c = '\t' || c = '\n' || c = '\r'

/-- Python dict assignment `d[k] = v`: replace in place, append when new. -/
def dictSetJ (d : List (Str × JsonVal)) (k : Str) (v : JsonVal) :
    List (Str × JsonVal) :=
  match d with
  | [] => [(k, v)]
  | kv :: rest => if kv.1 = k then (k, v) :: rest else kv :: dictSetJ rest k v

/-- Python dict lookup as an option. -/
def dictGetJ (d : List (Str × JsonVal)) (k : Str) : Option JsonVal :=
  (d.find? fun kv => kv.1 = k).map (·.2)

/-- Decimal digit run → value. -/
def digitsToNat (ds : Str) : Nat :=
  ds.foldl (fun acc c => acc * 10 + (c.toNat - 0x30)) 0

/-- Unsigned integer part of a JSON number: `0` or a nonzero digit followed by
    digits (the grammar `0|[1-9][0-9]*`, so leading zeros end the literal). -/
def jsonUIntPart : Str → Option (Str × Str)
  | [] => none
  | c :: rest =>
    if c = '0' then some (['0'], rest)
    else if c.isDigit then
      some (c :: rest.takeWhile Char.isDigit, rest.dropWhile Char.isDigit)
    else none

/-- The fraction part `\.[0-9]+` when present; `none` means no fraction and
    nothing consumed. -/
def jsonFracPart : Str → Option (Str × Str)
  | '.' :: c :: rest =>
    if c.isDigit then
      some ('.' :: c :: rest.takeWhile Char.isDigit, rest.dropWhile Char.isDigit)
    else none
  | _ => none

/-- The exponent part `[eE][-+]?[0-9]+` when present. -/
def jsonExpPart : Str → Option (Str × Str)
  | e :: rest =>
    if e = 'e' || e = 'E' then
      match rest with
      | s :: rest2 =>
        if s = '+' || s = '-' then
          match rest2 with
          | c :: rest3 =>
            if c.isDigit then
              some (e :: s :: c :: rest3.takeWhile Char.isDigit,
                    rest3.dropWhile Char.isDigit)
            else none
          | [] => none
        else if s.isDigit then
          some (e :: s :: rest2.takeWhile Char.isDigit,
                rest2.dropWhile Char.isDigit)
        else none
      | [] => none
    else none
  | [] => none

/-- A JSON number starting at `s` (the regex `NUMBER_RE` of the Python
    decoder): integer literals give `jint`, a fraction or exponent gives
    `jfloat` holding the matched text. -/
def jsonNumber (s : Str) : Option (JsonVal × Str) :=
  let sign : Str × Str := match s with
    | '-' :: rest => (['-'], rest)
    | _ => ([], s)
  match jsonUIntPart sign.2 with
  | none => none
  | some (intDigits, r1) =>
    let frac := match jsonFracPart r1 with
      | some p => p
      | none => ([], r1)
    let expp := match jsonExpPart frac.2 with
      | some p => p
      | none => ([], frac.2)
    if frac.1 = [] ∧ expp.1 = [] then
      let n : Int := Int.ofNat (digitsToNat intDigits)
      some (.jint (if sign.1 = [] then n else -n), r1)
    else
      some (.jfloat (sign.1 ++ intDigits ++ frac.1 ++ expp.1), expp.2)

/-- Are these four characters hex digits. -/
def hex4ok (a b c d : Char) : Bool :=
  isHexDigitPy a && isHexDigitPy b && isHexDigitPy c && isHexDigitPy d

/-- Value of four hex digits. -/
def hexQuad (a b c d : Char) : Nat :=
  ((hexVal a * 16 + hexVal b) * 16 + hexVal c) * 16 + hexVal d

/-- JSON string body after the opening quote, strict mode: control characters
    are rejected, escapes are decoded, `\uXXXX` surrogate pairs are combined
    (a lone surrogate, which Python would keep in the `str`, has no `Char`
    counterpart and decodes to the null character here). -/
def jsonStringRest : Str → Option (Str × Str)
  | [] => none
  | c :: rest =>
    if c = '"' then some ([], rest)
    else if c = '\\' then
      match rest with
      | [] => none
      | e :: rest2 =>
        if e = 'u' then
          match rest2 with
          | a :: b :: c2 :: d :: rest3 =>
            if hex4ok a b c2 d then
              let n := hexQuad a b c2 d
              if 0xD800 ≤ n ∧ n ≤ 0xDBFF then
                match rest3 with
                | u1 :: u2 :: a2 :: b2 :: c3 :: d2 :: rest5 =>
                  if u1 = '\\' ∧ u2 = 'u' ∧ hex4ok a2 b2 c3 d2 then
                    let n2 := hexQuad a2 b2 c3 d2
                    if 0xDC00 ≤ n2 ∧ n2 ≤ 0xDFFF then
                      (jsonStringRest rest5).map fun p =>
                        (Char.ofNat
                            (0x10000 + (n - 0xD800) * 1024 + (n2 - 0xDC00)) ::
                          p.1, p.2)
                    else
                      (jsonStringRest (u1 :: u2 :: a2 :: b2 :: c3 :: d2 :: rest5)).map
                        fun p => (Char.ofNat n :: p.1, p.2)
                  else
                    (jsonStringRest (u1 :: u2 :: a2 :: b2 :: c3 :: d2 :: rest5)).map
                      fun p => (Char.ofNat n :: p.1, p.2)
                | [x1, x2, x3, x4, x5] =>
                  (jsonStringRest [x1, x2, x3, x4, x5]).map
                    fun p => (Char.ofNat n :: p.1, p.2)
                | [x1, x2, x3, x4] =>
                  (jsonStringRest [x1, x2, x3, x4]).map
                    fun p => (Char.ofNat n :: p.1, p.2)
                | [x1, x2, x3] =>
                  (jsonStringRest [x1, x2, x3]).map fun p => (Char.ofNat n :: p.1, p.2)
                | [x1, x2] =>
                  (jsonStringRest [x1, x2]).map fun p => (Char.ofNat n :: p.1, p.2)
                | [x1] =>
                  (jsonStringRest [x1]).map fun p => (Char.ofNat n :: p.1, p.2)
                | [] => none
              else (jsonStringRest rest3).map fun p => (Char.ofNat n :: p.1, p.2)
            else none
          | _ => none
        else
          let dec : Option Char :=
            if e = '"' then some '"'
            else if e = '\\' then some '\\'
            else if e = '/' then some '/'
            else if e = 'b' then some '\x08'
            else if e = 'f' then some '\x0c'
            else if e = 'n' then some '\n'
            else if e = 'r' then some '\r'
            else if e = 't' then some '\t'
            else none
          match dec with
          | some ch => (jsonStringRest rest2).map fun p => (ch :: p.1, p.2)
          | none => none
    else if c.toNat < 0x20 then none
    else (jsonStringRest rest).map fun p => (c :: p.1, p.2)

mutual
/-- One JSON value starting at `s` (whitespace skipped first), with fuel
    bounding the recursion depth; `json_loads` supplies ample fuel. The
    default `json.loads` accepts the extra constants `NaN`, `Infinity` and
    `-Infinity`. -/
def jsonValue : Nat → Str → Option (JsonVal × Str)
  | 0, _ => none
  | Nat.succ fuel, s =>
    match jsonSkipWs s with
    | [] => none
    | c :: rest =>
      if c = '"' then (jsonStringRest rest).map fun p => (.jstr p.1, p.2)
      else if c = '\x7b' then jsonMembers fuel rest []
      else if c = '[' then jsonElements fuel rest []
      else if c = 'n' then
        match rest with
        | 'u' :: 'l' :: 'l' :: r => some (.jnull, r)
        | _ => none
      else if c = 't' then
        match rest with
        | 'r' :: 'u' :: 'e' :: r => some (.jbool true, r)
        | _ => none
      else if c = 'f' then
        match rest with
        | 'a' :: 'l' :: 's' :: 'e' :: r => some (.jbool false, r)
        | _ => none
      else if c = 'N' then
        match rest with
        | 'a' :: 'N' :: r => some (.jfloat (str "NaN"), r)
        | _ => none
      else if c = 'I' then
        match rest with
        | 'n' :: 'f' :: 'i' :: 'n' :: 'i' :: 't' :: 'y' :: r =>
          some (.jfloat (str "Infinity"), r)
        | _ => none
      else if c = '-' then
        match rest with
        | 'I' :: 'n' :: 'f' :: 'i' :: 'n' :: 'i' :: 't' :: 'y' :: r =>
          some (.jfloat (str "-Infinity"), r)
        | _ => jsonNumber (c :: rest)
      else if c.isDigit then jsonNumber (c :: rest)
      else none

/-- Members of an object after the opening brace, accumulating into the
    insertion-ordered dict (a duplicated key overwrites its value in place). -/
def jsonMembers : Nat → Str → List (Str × JsonVal) → Option (JsonVal × Str)
  | 0, _, _ => none
  | Nat.succ fuel, s, acc =>
    match jsonSkipWs s with
    | [] => none
    | c :: rest =>
      if c == '\x7d' && acc.isEmpty then some (.jobj [], rest)
      else if c = '"' then
        match jsonStringRest rest with
        | none => none
        | some (key, r1) =>
          match jsonSkipWs r1 with
          | ':' :: r2 =>
            match jsonValue fuel r2 with
            | none => none
            | some (v, r3) =>
              let acc2 := dictSetJ acc key v
              match jsonSkipWs r3 with
              | ',' :: r4 => jsonMembers fuel r4 acc2
              | c2 :: r4 => if c2 = '\x7d' then some (.jobj acc2, r4) else none
              | [] => none
          | _ => none
      else none

/-- Elements of an array after the opening bracket. -/
def jsonElements : Nat → Str → List JsonVal → Option (JsonVal × Str)
  | 0, _, _ => none
  | Nat.succ fuel, s, acc =>
    match jsonSkipWs s with
    | [] => none
    | c :: rest =>
      if c == ']' && acc.isEmpty then some (.jarr [], rest)
      else
        match jsonValue fuel (c :: rest) with
        | none => none
        | some (v, r1) =>
          match jsonSkipWs r1 with
          | ',' :: r2 => jsonElements fuel r2 (acc ++ [v])
          | ']' :: r2 => some (.jarr (acc ++ [v]), r2)
          | _ => none
end

/-- `json.loads`: parse one value and require only whitespace to remain
    (otherwise the decoder raises, modelled as `none`). -/
def json_loads (s : Str) : Option JsonVal :=
  match jsonValue (2 * s.length + 2) s with
  | some (v, rest) => if jsonSkipWs rest = [] then some v else none
  | none => none

/-- `LLMClient.parse_json_response` (llm_client.py lines 115-148): strip,
    remove a leading fence line and trailing fence, remove a bare `json`
    prefix line, then `json.loads`; `none` models the re-raised
    `json.JSONDecodeError`. -/
def parse_json_response (response_text : Str) : Option JsonVal :=
  let clean := strip response_text
  let clean :=
    if (str "```").isPrefixOf clean then
      let c1 := match splitFirst '\n' clean with
        | some p => p.2
        | none => clean.drop 3
      let c2 := if (str "```").isSuffixOf c1 then c1.take (c1.length - 3) else c1
      strip c2
    else clean
  let clean :=
    if (str "json\n").isPrefixOf clean then strip (clean.drop 5) else clean
  json_loads clean

/-- Python substring test `needle in hay`. -/
def isSubstr (needle : Str) : Str → Bool
  | [] => needle.isEmpty
  | c :: t => needle.isPrefixOf (c :: t) || isSubstr needle t

/-- The provider-error taxonomy of `generate_day_plan`. -/
inductive LLMError where
  | quotaExceeded
  | authenticationFailed
  | apiError
deriving DecidableEq, Repr

/-- The classification of the `except` block of `generate_day_plan`
    (llm_client.py lines 94-113): keyword sets matched against the
    lower-cased provider error text, in priority order. -/
def classifyProviderError (msg : Str) : LLMError :=
  let m := toLowerStr msg
  if isSubstr (str "rate_limit") m || isSubstr (str "quota") m then
    .quotaExceeded
  else if isSubstr (str "api key") m || isSubstr (str "authentication") m ||
      isSubstr (str "401") m || isSubstr (str "unauthorized") m then
    .authenticationFailed
  else .apiError

/-- `LLMClient.__init__` (llm_client.py lines 27-47): the effective key is the
    argument if truthy, else `GROQ_API_KEY`; an empty result raises
    `ValueError` before any network use. -/
def llmClientInit (api_key : Option Str) (env : Env) : Option Str :=
  let key := match api_key with
    | some k => if k ≠ [] then k else env.GROQ_API_KEY
    | none => env.GROQ_API_KEY
  if key = [] then none else some key

/-- Python truthiness of a JSON value (the float case approximates
    `float(lit) != 0` by the presence of a nonzero digit, which coincides on
    every literal whose value does not underflow). -/
def pyTruthy : JsonVal → Bool
  | .jnull => false
  | .jbool b => b
  | .jint n => n ≠ 0
  | .jfloat lit => lit.any fun c => c.isDigit && c ≠ '0'
  | .jstr s => !s.isEmpty
  | .jarr xs => !xs.isEmpty
  | .jobj kvs => !kvs.isEmpty

/-- Python `k in v` for a string `k`: key membership for dicts, element
    equality for lists (a string equals no non-string), substring test for
    strings; `TypeError` for the other types. -/
def pyIn (k : Str) : JsonVal → Except Unit Bool
  | .jobj kvs => .ok (kvs.any fun kv => kv.1 = k)
  | .jarr xs =>
    .ok (xs.any fun x => match x with
      | .jstr s => s = k
      | _ => false)
  | .jstr s => .ok (isSubstr k s)
  | _ => .error ()

/-- Python `v[k]` for a string `k`: dict lookup (`KeyError` when absent),
    `TypeError` on every other type. -/
def pySubscript (v : JsonVal) (k : Str) : Except Unit JsonVal :=
  match v with
  | .jobj kvs =>
    match dictGetJ kvs k with
    | some x => .ok x
    | none => .error ()
  | _ => .error ()

/-- Python `x[0]`: first element of a list (`IndexError` when empty), first
    character of a string, `KeyError`/`TypeError` otherwise. -/
def firstItem : JsonVal → Except Unit JsonVal
  | .jarr (x :: _) => .ok x
  | .jarr [] => .error ()
  | .jstr (c :: _) => .ok (.jstr [c])
  | .jstr [] => .error ()
  | _ => .error ()

/-- `str(v)` as used in the weather f-string. Scalars render faithfully;
    container reprs are abbreviated, and no embedded property depends on
    them. -/
def pyStr : JsonVal → Str
  | .jnull => str "None"
  | .jbool true => str "True"
  | .jbool false => str "False"
  | .jint n => str (toString n)
  | .jfloat lit => lit
  | .jstr s => s
  | .jarr _ => str "[...]"
  | .jobj _ => str "\x7b...\x7d"

/-- `d.get(key, ["?"])` on the daily dict. -/
def jsonGetD (kvs : List (Str × JsonVal)) (k : Str) : JsonVal :=
  (dictGetJ kvs k).getD (.jarr [.jstr (str "?")])

/-- The weather summary sentinel. -/
def weatherSentinel : Str := str "Weather data unavailable."

/-- server.py lines 742-752: build the prompt's weather line. This block runs
    outside the fetch try/except, so `.error` is an uncaught exception that
    aborts the request with an internal server error. -/
def buildWeatherSummary (weather_data : Option JsonVal) : Except Unit Str :=
  match weather_data with
  | none => .ok weatherSentinel
  | some j =>
    if pyTruthy j then
      match pyIn (str "daily") j with
      | .error e => .error e
      | .ok false => .ok weatherSentinel
      | .ok true =>
        match pySubscript j (str "daily") with
        | .error e => .error e
        | .ok d =>
          match d with
          | .jobj kvs => do
            let tmin ← firstItem (jsonGetD kvs (str "temperature_2m_min"))
            let tmax ← firstItem (jsonGetD kvs (str "temperature_2m_max"))
            let prec ← firstItem (jsonGetD kvs (str "precipitation_sum"))
            let wind ← firstItem (jsonGetD kvs (str "windspeed_10m_max"))
            .ok (str "Temperature: " ++ pyStr tmin ++ str "°C - " ++
              pyStr tmax ++ str "°C, Precipitation: " ++ pyStr prec ++
              str "mm, Wind: " ++ pyStr wind ++ str "km/h")
          | _ => .error ()
    else .ok weatherSentinel

/-- The body of the activity loop of `process_plan_activities`
    (affiliate_config.py lines 178-187) on a dict activity: copy, and when a
    truthy `booking_url` is present, reassign it through
    `add_affiliate_params` (which returns non-string values unchanged). -/
def process_activity (env : Env) (a : List (Str × JsonVal)) : List (Str × JsonVal) :=
  match dictGetJ a (str "booking_url") with
  | some v =>
    if pyTruthy v then
      dictSetJ a (str "booking_url")
        (match v with
         | .jstr s => .jstr (add_affiliate_params env s)
         | other => other)
    else a
  | none => a

/-- One element of the activity list. A non-dict element raises in Python
    (`.copy()` on a scalar, or subscripting a list that contains the string
    `"booking_url"`), modelled as `.error`; a list element without that
    string is copied through unchanged. -/
def process_one_activity (env : Env) : JsonVal → Except Unit JsonVal
  | .jobj kvs => .ok (.jobj (process_activity env kvs))
  | .jarr xs =>
    if xs.any fun x => match x with
        | .jstr s => s = str "booking_url"
        | _ => false
    then .error ()
    else .ok (.jarr xs)
  | _ => .error ()

/-- `process_plan_activities` (affiliate_config.py lines 164-189) on a list
    argument: an empty (falsy) list is returned as-is, otherwise every
    activity is processed in order. -/
def process_plan_activities (env : Env) (activities : List JsonVal) :
    Except Unit (List JsonVal) :=
  if activities.isEmpty then .ok activities
  else activities.mapM (process_one_activity env)

/-- server.py lines 904-907: when the parsed plan has a list under
    `"activities"`, replace it by the processed list; the membership test and
    the subscript can raise on non-dict plans. -/
def process_activities_step (env : Env) (plan_data : JsonVal) :
    Except Unit JsonVal := do
  let present ← pyIn (str "activities") plan_data
  if present then
    let v ← pySubscript plan_data (str "activities")
    match v with
    | .jarr xs => do
      let ys ← process_plan_activities env xs
      match plan_data with
      | .jobj kvs => return .jobj (dictSetJ kvs (str "activities") (.jarr ys))
      | _ => .error ()
    | _ => return plan_data
  else return plan_data

/-- The fallback record built on a parse failure (server.py lines 912-919). -/
def degraded_plan (response_text : Str) : JsonVal :=
  .jobj
    [ (str "raw_response", .jstr response_text),
      (str "parse_error", .jbool true),
      (str "error_message", .jstr (str
        "The AI generated an invalid response format. Please try generating the plan again.")) ]

/-- server.py lines 899-919: parse the response; on success run the affiliate
    step (whose exceptions are not caught), on `json.JSONDecodeError` fall
    back to the degraded record. -/
def plan_data_step (env : Env) (response_text : Str) : Except Unit JsonVal :=
  match parse_json_response response_text with
  | some plan => process_activities_step env plan
  | none => .ok (degraded_plan response_text)

/-- One port entry of a stored trip (the fields the pipeline reads). -/
structure Port where
  port_id : Str
  name : Str
  country : Str
  arrival : Str
  departure : Str
deriving DecidableEq, Repr

/-- A stored trip (the fields the pipeline reads). -/
structure Trip where
  ship_name : Str
  ports : List Port
deriving DecidableEq, Repr

/-- State of the DynamoDB client as seen by `check_db_connection`. -/
inductive DbState where
  | disconnected
  | pingFails
  | connected
deriving DecidableEq, Repr

/-- Outcome of `db_client.get_trip`: an exception, or an optional trip. -/
inductive TripFetch where
  | raises
  | fetched (t : Option Trip)

/-- Outcome of the weather GET (server.py lines 716-740): an HTTP response
    whose body may fail JSON decoding (`none`), or an exception/timeout
    during the request. -/
inductive WeatherOutcome where
  | response (status : Nat) (body : Option JsonVal)
  | failure

/-- Outcome of the provider call inside `generate_day_plan`: the raw response
    text, or an exception whose text is classified. -/
inductive GenOutcome where
  | success (text : Str)
  | raises (msg : Str)

/-- The error taxonomy of the endpoint, by its `error` field. -/
inductive FailKind where
  | databaseUnavailable
  | databaseConnectionLost
  | tripNotFound
  | portNotFound
  | dataFetchFailed
  | aiServiceNotConfigured
  | aiServiceQuotaExceeded
  | aiServiceAuthFailed
  | aiServiceUnavailable
  | planSaveFailed
  | unhandledException
deriving DecidableEq, Repr

/-- A terminal failure: its kind and the `retry_after` hint when present. -/
structure PipelineFailure where
  kind : FailKind
  retryAfter : Option Nat
deriving DecidableEq, Repr

/-- What a successful run returns and persists: the plan payload, the
    persisted `weather` field, and the weather line used in the prompt. -/
structure RunResult where
  plan : JsonVal
  weatherField : Option JsonVal
  weatherSummary : Str

/-- server.py lines 713-740: `weather_data` after the guarded fetch — the
    parsed body on a 200 response, `None` on any other status, a body that
    fails JSON decoding, or a request exception. -/
def weather_data_of : WeatherOutcome → Option JsonVal
  | .response 200 (some body) => some body
  | .response _ _ => none
  | .failure => none

/-- server.py lines 931-935: the persisted `weather` field
    (`weather_data.get("daily")` under the truthy-dict guard). -/
def persisted_weather (wd : Option JsonVal) : Option JsonVal :=
  match wd with
  | some (.jobj kvs) => dictGetJ kvs (str "daily")
  | _ => none

/-- `check_db_connection` (server.py lines 126-155). -/
def check_db_connection : DbState → Option PipelineFailure
  | .disconnected => some ⟨.databaseUnavailable, none⟩
  | .pingFails => some ⟨.databaseConnectionLost, none⟩
  | .connected => none

/-- External-call outcomes feeding one run of `generate_plan`. -/
structure PipelineInput where
  db : DbState
  tripResult : TripFetch
  port_id : Str
  weather : WeatherOutcome
  env : Env
  gen : GenOutcome
  persistOk : Bool

/-- The `generate_plan` endpoint (server.py lines 666-953) as a function of
    its external-call outcomes. Each `HTTPException` branch becomes a
    `PipelineFailure`; an exception that no handler catches becomes
    `unhandledException`. -/
def runPipeline (inp : PipelineInput) : Except PipelineFailure RunResult :=
  match check_db_connection inp.db with
  | some f => .error f
  | none =>
    match inp.tripResult with
    | .raises => .error ⟨.dataFetchFailed, none⟩
    | .fetched none => .error ⟨.tripNotFound, none⟩
    | .fetched (some trip) =>
      match trip.ports.find? (fun p => p.port_id = inp.port_id) with
      | none => .error ⟨.portNotFound, none⟩
      | some _port =>
        let weather_data := weather_data_of inp.weather
        match buildWeatherSummary weather_data with
        | .error _ => .error ⟨.unhandledException, none⟩
        | .ok summary =>
          match llmClientInit none inp.env with
          | none => .error ⟨.aiServiceNotConfigured, none⟩
          | some _key =>
            match inp.gen with
            | .raises msg =>
              match classifyProviderError msg with
              | .quotaExceeded => .error ⟨.aiServiceQuotaExceeded, some 300⟩
              | .authenticationFailed => .error ⟨.aiServiceAuthFailed, none⟩
              | .apiError => .error ⟨.aiServiceUnavailable, none⟩
            | .success response_text =>
              match plan_data_step inp.env response_text with
              | .error _ => .error ⟨.unhandledException, none⟩
              | .ok plan_data =>
                if inp.persistOk then
                  .ok ⟨plan_data, persisted_weather weather_data, summary⟩
                else .error ⟨.planSaveFailed, none⟩

/-! ### Concrete fixtures used by the claim theorems -/

/-- Every configurable id unset. -/
def emptyEnv : Env := ⟨[], [], [], [], [], []⟩

/-- Viator id configured as `X`, all others unset. -/
def envViator : Env := ⟨str "X", [], [], [], [], []⟩

/-- The five recognized partner domains. -/
def partnerDomains : List Str :=
  [str "viator.com", str "getyourguide.com", str "klook.com",
   str "tripadvisor.com", str "booking.com"]

/-- A GROQ key configured, no affiliate ids. -/
def envKey : Env := ⟨[], [], [], [], [], str "K"⟩

/-- A sample stored port. -/
def samplePort : Port :=
  ⟨str "p1", str "Rome", str "Italy", str "2026-06-01T08:00", str "2026-06-01T20:00"⟩

/-- A sample stored trip containing `samplePort`. -/
def sampleTrip : Trip := ⟨str "Ship", [samplePort]⟩

/-- A pipeline input whose database, context and persistence collaborators
    succeed, parameterized by environment, weather outcome and generation
    outcome. -/
def baseInputW (env : Env) (w : WeatherOutcome) (gen : GenOutcome) : PipelineInput :=
  ⟨.connected, .fetched (some sampleTrip), str "p1", w, env, gen, true⟩

/-- `baseInputW` with the weather request failing. -/
def baseInput (env : Env) (gen : GenOutcome) : PipelineInput :=
  baseInputW env .failure gen

/-- A weather body whose daily field is a dict of one-element lists, as the
    forecast provider returns. -/
def weatherGoodDaily : JsonVal :=
  .jobj [(str "daily", .jobj
    [(str "temperature_2m_min", .jarr [.jint 10]),
     (str "temperature_2m_max", .jarr [.jint 20]),
     (str "precipitation_sum", .jarr [.jfloat (str "1.5")]),
     (str "windspeed_10m_max", .jarr [.jint 30])])]

/-- A well-formed JSON weather body whose daily lists are empty — the
    `d.get("temperature_2m_min", ["?"])[0]` indexing then raises. -/
def weatherBadDaily : JsonVal :=
  .jobj [(str "daily", .jobj [(str "temperature_2m_min", .jarr [])])]

/-- Keep only the first occurrence of each key (the specification-side
    description of query-parameter flattening, to compare with the code's
    group-then-take-first). -/
def keepFirstByKey : List (Str × Str) → List (Str × Str)
  | [] => []
  | kv :: rest =>
    kv :: keepFirstByKey (rest.filter fun kv2 => !(kv2.1 = kv.1 : Bool))
termination_by l => l.length
decreasing_by
  have := rest.length_filter_le fun kv2 => !(kv2.1 = kv.1 : Bool)
  simp only [List.length_cons]
  omega

/-! ### Helper lemmas on the string primitives -/

theorem splitFirst_eq_none {c : Char} {s : Str} : splitFirst c s = none ↔ c ∉ s := by
  induction s with
  | nil => simp [splitFirst]
  | cons x xs ih =>
    simp only [splitFirst]
    by_cases hx : x = c
    · simp [hx]
    · simp only [if_neg hx, Option.map_eq_none', ih, List.mem_cons]
      constructor
      · intro h hc
        rcases hc with hc | hc
        · exact hx hc.symm
        · exact h hc
      · intro h hc
        exact h (Or.inr hc)

theorem splitFirst_some {c : Char} {s a b : Str} (h : splitFirst c s = some (a, b)) :
    s = a ++ c :: b ∧ c ∉ a := by
  induction s generalizing a b with
  | nil => simp [splitFirst] at h
  | cons x xs ih =>
    simp only [splitFirst] at h
    by_cases hx : x = c
    · rw [if_pos hx] at h
      obtain ⟨rfl, rfl⟩ := by simpa using h
      simp [hx]
    · rw [if_neg hx, Option.map_eq_some'] at h
      obtain ⟨p, hp, he⟩ := h
      have ha : a = x :: p.1 := (congrArg Prod.fst he).symm
      have hb : b = p.2 := (congrArg Prod.snd he).symm
      subst ha hb
      obtain ⟨hs, hna⟩ := ih hp
      refine ⟨by simp [hs], ?_⟩
      simp only [List.mem_cons, not_or]
      exact ⟨fun hc => hx hc.symm, hna⟩

theorem splitFirst_append {c : Char} {a : Str} (b : Str) (h : c ∉ a) :
    splitFirst c (a ++ c :: b) = some (a, b) := by
  induction a with
  | nil => simp [splitFirst]
  | cons x xs ih =>
    have hx : ¬x = c := fun e => h (by simp [e])
    have hxs : c ∉ xs := fun hc => h (List.mem_cons_of_mem _ hc)
    simp [splitFirst, hx, ih hxs]

/-! ### Affiliate configuration lemmas -/

theorem filterActive_cons_ne {kv : Str × Str} {rest : List (Str × Str)}
    (h : filterActive rest ≠ []) : filterActive (kv :: rest) ≠ [] := by
  unfold filterActive at h ⊢
  rw [List.filter_cons]
  split
  · simp
  · exact h

theorem get_affiliate_config_cases {env : Env} {domain : Str}
    {cfg : List (Str × Str)} (h : get_affiliate_config env domain = some cfg) :
    cfg = [(str "aid", env.VIATOR_AFFILIATE_ID),
           (str "mcid", str "cruise-planner-app")] ∨
    cfg = [(str "partner_id", env.GETYOURGUIDE_AFFILIATE_ID),
           (str "utm_source", str "cruise-planner"),
           (str "utm_medium", str "affiliate")] ∨
    cfg = [(str "affiliate_id", env.KLOOK_AFFILIATE_ID),
           (str "source", str "cruise-planner")] ∨
    cfg = [(str "pid", env.TRIPADVISOR_AFFILIATE_ID),
           (str "source", str "cruise-planner")] ∨
    cfg = [(str "aid", env.BOOKING_AFFILIATE_ID),
           (str "label", str "cruise-planner-booking")] := by
  simp only [get_affiliate_config, affiliate_partners, List.findSome?_cons,
    List.findSome?_nil] at h
  repeat' split at h
  all_goals simp_all

theorem get_affiliate_config_isSome_iff (env : Env) (domain : Str) :
    (get_affiliate_config env domain).isSome ↔
      ∃ pd ∈ partnerDomains, domain = pd ∨ ('.' :: pd) <:+ domain := by
  rw [Option.isSome_iff_ne_none, Ne, get_affiliate_config,
    List.findSome?_eq_none_iff]
  push_neg
  constructor
  · rintro ⟨pc, hmem, hne⟩
    have hc : (domain = pc.1 || ('.' :: pc.1).isSuffixOf domain) = true := by
      by_contra hc
      exact hne (by simp [hc])
    have hc2 : domain = pc.1 ∨ ('.' :: pc.1) <:+ domain := by
      simpa [List.isSuffixOf_iff_suffix] using hc
    refine ⟨pc.1, ?_, hc2⟩
    simp only [affiliate_partners, List.mem_cons, List.not_mem_nil, or_false]
      at hmem
    rcases hmem with h | h | h | h | h <;> simp [partnerDomains, h]
  · rintro ⟨pd, hpd, hcond⟩
    have hb : ∀ cfg : List (Str × Str),
        (if domain = (pd, cfg).1 || ('.' :: (pd, cfg).1).isSuffixOf domain
          then some (pd, cfg).2 else none) ≠ none := by
      intro cfg
      have hc : (domain = pd || ('.' :: pd).isSuffixOf domain) = true := by
        simpa [List.isSuffixOf_iff_suffix] using hcond
      simp [hc]
    simp only [partnerDomains, List.mem_cons, List.not_mem_nil, or_false] at hpd
    rcases hpd with rfl | rfl | rfl | rfl | rfl
    · exact ⟨(str "viator.com", [(str "aid", env.VIATOR_AFFILIATE_ID),
        (str "mcid", str "cruise-planner-app")]),
        by simp [affiliate_partners], hb _⟩
    · exact ⟨(str "getyourguide.com",
        [(str "partner_id", env.GETYOURGUIDE_AFFILIATE_ID),
        (str "utm_source", str "cruise-planner"),
        (str "utm_medium", str "affiliate")]),
        by simp [affiliate_partners], hb _⟩
    · exact ⟨(str "klook.com", [(str "affiliate_id", env.KLOOK_AFFILIATE_ID),
        (str "source", str "cruise-planner")]),
        by simp [affiliate_partners], hb _⟩
    · exact ⟨(str "tripadvisor.com", [(str "pid", env.TRIPADVISOR_AFFILIATE_ID),
        (str "source", str "cruise-planner")]),
        by simp [affiliate_partners], hb _⟩
    · exact ⟨(str "booking.com", [(str "aid", env.BOOKING_AFFILIATE_ID),
        (str "label", str "cruise-planner-booking")]),
        by simp [affiliate_partners], hb _⟩

/-! ### Claim theorems -/

/-- C2: the rewriter matches a host (already lower-cased and with a leading
    `www.` stripped by `get_domain_from_url`) against a recognized domain
    exactly when the host equals the domain or ends with `.` followed by the
    domain; hence `x.viator.com` is rewritten under a configured Viator id,
    while `notviator.com`, `viator.com.evil.com` and `klook.com.fake.com` are
    returned unchanged. -/
theorem claim_C2 :
    (∀ (env : Env) (domain : Str),
        (get_affiliate_config env domain).isSome ↔
          ∃ pd ∈ partnerDomains, domain = pd ∨ ('.' :: pd) <:+ domain) ∧
    add_affiliate_params envViator (str "https://x.viator.com/t") =
      str "https://x.viator.com/t?aid=X&mcid=cruise-planner-app" ∧
    add_affiliate_params envViator (str "https://notviator.com/t") =
      str "https://notviator.com/t" ∧
    add_affiliate_params envViator (str "https://viator.com.evil.com/t") =
      str "https://viator.com.evil.com/t" ∧
    add_affiliate_params envViator (str "https://klook.com.fake.com/t") =
      str "https://klook.com.fake.com/t" :=
  ⟨get_affiliate_config_isSome_iff, by decide, by decide, by decide, by decide⟩

/-- C9: every recognized partner rule carries at least one static non-empty
    parameter, so the branch returning a recognized URL unchanged because no
    affiliate id is configured is unreachable: even with every id variable
    unset, a matching URL is still rewritten with the static parameters
    (`mcid=cruise-planner-app` for viator.com). -/
theorem claim_C9 :
    (∀ (env : Env) (domain : Str) (cfg : List (Str × Str)),
        get_affiliate_config env domain = some cfg → filterActive cfg ≠ []) ∧
    add_affiliate_params emptyEnv (str "https://viator.com/tour") =
      str "https://viator.com/tour?mcid=cruise-planner-app" := by
  constructor
  · intro env domain cfg h
    rcases get_affiliate_config_cases h with rfl | rfl | rfl | rfl | rfl
    · exact filterActive_cons_ne (by decide)
    · exact filterActive_cons_ne (by decide)
    · exact filterActive_cons_ne (by decide)
    · exact filterActive_cons_ne (by decide)
    · exact filterActive_cons_ne (by decide)
  · decide

/-- Witness for C9 at a concrete input: the viator rule with every id unset
    still has a non-empty active parameter set. -/
theorem claim_C9_witness :
    get_affiliate_config emptyEnv (str "viator.com") =
      some [(str "aid", []), (str "mcid", str "cruise-planner-app")] ∧
    filterActive [(str "aid", ([] : Str)), (str "mcid", str "cruise-planner-app")] ≠ [] :=
  ⟨by decide, claim_C9.1 emptyEnv (str "viator.com") _ (by decide)⟩

/-! ### Dict lemmas for the parameter-adding loop -/

theorem dictContains_append {d e : List (Str × Str)} {k : Str} :
    dictContains (d ++ e) k = (dictContains d k || dictContains e k) := by
  simp [dictContains, List.any_append]

theorem dictGet_append_left {d e : List (Str × Str)} {k : Str}
    (h : dictContains d k = true) : dictGet (d ++ e) k = dictGet d k := by
  simp only [dictGet, List.find?_append]
  have hs : (d.find? fun kv => kv.1 = k).isSome := by
    simp only [dictContains, List.any_eq_true] at h
    obtain ⟨kv, hm, hk⟩ := h
    exact List.find?_isSome.mpr ⟨kv, hm, hk⟩
  obtain ⟨v, hv⟩ := Option.isSome_iff_exists.mp hs
  simp [hv]

theorem addMissingParams_preserves {k : Str} :
    ∀ (active flat : List (Str × Str)), dictContains flat k = true →
      dictGet (addMissingParams flat active) k = dictGet flat k := by
  intro active
  induction active with
  | nil => intro flat _; rfl
  | cons kv rest ih =>
    intro flat h
    simp only [addMissingParams]
    by_cases hc : dictContains flat kv.1 = true
    · rw [if_pos hc]
      exact ih flat h
    · rw [if_neg hc]
      rw [ih _ (by simp [dictContains_append, h])]
      exact dictGet_append_left h

theorem addMissingParams_contains {k : Str} :
    ∀ (active flat : List (Str × Str)), dictContains flat k = true →
      dictContains (addMissingParams flat active) k = true := by
  intro active
  induction active with
  | nil => intro flat h; exact h
  | cons kv rest ih =>
    intro flat h
    simp only [addMissingParams]
    by_cases hc : dictContains flat kv.1 = true
    · rw [if_pos hc]; exact ih flat h
    · rw [if_neg hc]; exact ih _ (by simp [dictContains_append, h])

theorem addMissingParams_contains_active :
    ∀ (active flat : List (Str × Str)) (kv : Str × Str), kv ∈ active →
      dictContains (addMissingParams flat active) kv.1 = true := by
  intro active
  induction active with
  | nil => intro flat kv h; simp at h
  | cons kv0 rest ih =>
    intro flat kv h
    simp only [addMissingParams]
    rcases List.mem_cons.mp h with rfl | hm
    · by_cases hc : dictContains flat kv.1 = true
      · rw [if_pos hc]; exact addMissingParams_contains rest flat hc
      · rw [if_neg hc]
        exact addMissingParams_contains rest _
          (by simp [dictContains_append, dictContains])
    · by_cases hc : dictContains flat kv0.1 = true
      · rw [if_pos hc]; exact ih flat kv hm
      · rw [if_neg hc]; exact ih _ kv hm

/-! ### Grouping and flattening lemmas -/

theorem dictAppend_good {g : List (Str × List Str)} {k : Str} {v : Str}
    (h : ∀ kv ∈ g, kv.2 ≠ []) : ∀ kv ∈ dictAppend g k v, kv.2 ≠ [] := by
  induction g with
  | nil =>
    intro kv hm
    simp only [dictAppend, List.mem_singleton] at hm
    subst hm; simp
  | cons kv0 rest ih =>
    intro kv hm
    simp only [dictAppend] at hm
    by_cases hk : kv0.1 = k
    · rw [if_pos hk] at hm
      rcases List.mem_cons.mp hm with rfl | hm2
      · simp
      · exact h kv (List.mem_cons_of_mem _ hm2)
    · rw [if_neg hk] at hm
      rcases List.mem_cons.mp hm with rfl | hm2
      · exact h kv (List.mem_cons_self _ _)
      · exact ih (fun x hx => h x (List.mem_cons_of_mem _ hx)) kv hm2

theorem flat_dictAppend {g : List (Str × List Str)} {k : Str} {v : Str}
    (hg : ∀ kv ∈ g, kv.2 ≠ []) :
    flat_params_of (dictAppend g k v) =
      if dictContains (flat_params_of g) k then flat_params_of g
      else flat_params_of g ++ [(k, v)] := by
  induction g with
  | nil => simp [dictAppend, flat_params_of, dictContains]
  | cons kv0 rest ih =>
    by_cases hk : kv0.1 = k
    · have hv0 : kv0.2 ≠ [] := hg kv0 (List.mem_cons_self _ _)
      obtain ⟨v0, vs0, hvs⟩ : ∃ v0 vs0, kv0.2 = v0 :: vs0 := by
        cases hcc : kv0.2 with
        | nil => exact absurd hcc hv0
        | cons a b => exact ⟨a, b, rfl⟩
      simp only [dictAppend, if_pos hk, flat_params_of, List.map_cons,
        dictContains, List.any_cons, hk, hvs]
      simp
    · have hrest : ∀ kv ∈ rest, kv.2 ≠ [] :=
        fun x hx => hg x (List.mem_cons_of_mem _ hx)
      simp only [dictAppend, if_neg hk, flat_params_of, List.map_cons,
        dictContains, List.any_cons]
      rw [show (decide (kv0.1 = k)) = false by simp [hk]]
      simp only [Bool.false_or]
      rw [← flat_params_of, ← flat_params_of, ← dictContains, ih hrest]
      by_cases hc : dictContains (flat_params_of rest) k = true
      · rw [if_pos hc, if_pos hc]
      · rw [if_neg hc, if_neg hc]
        simp

theorem flat_foldl_dictAppend :
    ∀ (l : List (Str × Str)) (g : List (Str × List Str)),
      (∀ kv ∈ g, kv.2 ≠ []) →
      flat_params_of (l.foldl (fun d kv => dictAppend d kv.1 kv.2) g) =
        flat_params_of g ++
          keepFirstByKey
            (l.filter fun kv => !dictContains (flat_params_of g) kv.1) := by
  intro l
  induction l with
  | nil => intro g _; simp [keepFirstByKey]
  | cons kv rest ih =>
    intro g hg
    simp only [List.foldl_cons, List.filter_cons]
    have hg' : ∀ x ∈ dictAppend g kv.1 kv.2, x.2 ≠ [] := dictAppend_good hg
    by_cases hc : dictContains (flat_params_of g) kv.1 = true
    · rw [ih _ hg', flat_dictAppend hg, if_pos hc]
      rw [show (!dictContains (flat_params_of g) kv.1) = false by simp [hc]]
      simp
    · rw [ih _ hg', flat_dictAppend hg, if_neg hc]
      rw [show (!dictContains (flat_params_of g) kv.1) = true by simp [hc]]
      simp only [if_pos, keepFirstByKey, List.append_assoc, List.cons_append,
        List.nil_append]
      congr 2
      rw [List.filter_filter]
      apply congrArg
      apply List.filter_congr
      intro x _
      simp only [dictContains_append, dictContains, List.any_cons,
        List.any_nil, Bool.or_false, Bool.not_or]
      rw [Bool.and_comm]
      simp [eq_comm]

theorem flat_parse_qs (qs : Str) :
    flat_params_of (parse_qs qs) = keepFirstByKey (parse_qsl qs) := by
  unfold parse_qs
  rw [flat_foldl_dictAppend (parse_qsl qs) [] (by simp)]
  simp [flat_params_of, dictContains]

theorem keepFirstByKey_of_nodup :
    ∀ {l : List (Str × Str)}, (l.map Prod.fst).Nodup → keepFirstByKey l = l := by
  intro l
  induction l with
  | nil => intro _; rw [keepFirstByKey]
  | cons kv rest ih =>
    intro h
    simp only [List.map_cons, List.nodup_cons] at h
    obtain ⟨hk, hrest⟩ := h
    have hfil : rest.filter (fun kv2 => !(kv2.1 = kv.1 : Bool)) = rest := by
      apply List.filter_eq_self.mpr
      intro x hx
      simp only [Bool.not_eq_true']
      have : x.1 ≠ kv.1 := by
        intro he
        exact hk (he ▸ List.mem_map_of_mem Prod.fst hx)
      simp [this]
    rw [keepFirstByKey, hfil, ih hrest]

/-- C4: an existing query key sharing a name with an affiliate parameter is
    never overwritten — the adding loop preserves the value of every key
    already present, and only absent keys are appended; concretely a viator
    URL carrying `aid=user123` keeps it. -/
theorem claim_C4 :
    (∀ (flat active : List (Str × Str)) (k : Str),
        dictContains flat k = true →
        dictGet (addMissingParams flat active) k = dictGet flat k) ∧
    add_affiliate_params envViator
        (str "https://www.viator.com/tours/Rome?aid=user123&x=2") =
      str "https://www.viator.com/tours/Rome?aid=user123&x=2&mcid=cruise-planner-app" :=
  ⟨fun flat active k h => addMissingParams_preserves active flat h, by decide⟩

/-- Witness for C4 at a concrete input: a pre-existing `aid` survives the
    adding loop unchanged. -/
theorem claim_C4_witness :
    dictContains [(str "aid", str "user123")] (str "aid") = true ∧
    dictGet
        (addMissingParams [(str "aid", str "user123")]
          [(str "aid", str "X"), (str "mcid", str "cruise-planner-app")])
        (str "aid") =
      dictGet [(str "aid", str "user123")] (str "aid") :=
  ⟨by decide, claim_C4.1 _ _ _ (by decide)⟩

/-- C10: the rewriter flattens every parsed query parameter to its first
    value (grouping then taking the head equals keeping the first occurrence
    of each key), so a repeated key keeps only its first value in the
    rewritten URL. -/
theorem claim_C10 :
    (∀ qs : Str, flat_params_of (parse_qs qs) = keepFirstByKey (parse_qsl qs)) ∧
    add_affiliate_params envViator (str "https://viator.com/t?a=1&a=2&b=3") =
      str "https://viator.com/t?a=1&b=3&aid=X&mcid=cruise-planner-app" :=
  ⟨flat_parse_qs, by decide⟩

/-! ### Generation gateway claims -/

/-- C6: provider exceptions are classified by keyword sets over the
    lower-cased error text in priority order (rate_limit/quota before the
    authentication keywords, otherwise generic); a quota failure surfaces with
    retry hint 300; a missing credential is detected at client construction
    and yields the not-configured kind regardless of the provider outcome. -/
theorem claim_C6 :
    (∀ msg : Str,
      (classifyProviderError msg = .quotaExceeded ↔
        (isSubstr (str "rate_limit") (toLowerStr msg) = true ∨
         isSubstr (str "quota") (toLowerStr msg) = true)) ∧
      (classifyProviderError msg = .authenticationFailed ↔
        (¬(isSubstr (str "rate_limit") (toLowerStr msg) = true ∨
            isSubstr (str "quota") (toLowerStr msg) = true) ∧
         (isSubstr (str "api key") (toLowerStr msg) = true ∨
          isSubstr (str "authentication") (toLowerStr msg) = true ∨
          isSubstr (str "401") (toLowerStr msg) = true ∨
          isSubstr (str "unauthorized") (toLowerStr msg) = true)))) ∧
    (∀ (env : Env) (msg : Str), env.GROQ_API_KEY ≠ [] →
        classifyProviderError msg = .quotaExceeded →
        runPipeline (baseInput env (.raises msg)) =
          .error ⟨.aiServiceQuotaExceeded, some 300⟩) ∧
    (∀ (env : Env) (gen : GenOutcome), env.GROQ_API_KEY = [] →
        runPipeline (baseInput env gen) =
          .error ⟨.aiServiceNotConfigured, none⟩) := by
  refine ⟨?_, ?_, ?_⟩
  · intro msg
    simp only [classifyProviderError]
    by_cases h1 : isSubstr (str "rate_limit") (toLowerStr msg) = true ∨
        isSubstr (str "quota") (toLowerStr msg) = true
    · have hb : (isSubstr (str "rate_limit") (toLowerStr msg) ||
          isSubstr (str "quota") (toLowerStr msg)) = true := by
        rcases h1 with h | h <;> simp [h]
      rw [if_pos hb]
      exact ⟨iff_of_true rfl h1,
        iff_of_false (by decide) (fun h => h.1 h1)⟩
    · push_neg at h1
      have hb : (isSubstr (str "rate_limit") (toLowerStr msg) ||
          isSubstr (str "quota") (toLowerStr msg)) = false := by
        simp only [Bool.or_eq_false_iff]
        exact ⟨by simpa using h1.1, by simpa using h1.2⟩
      rw [if_neg (by simp [hb])]
      have h1n : ¬(isSubstr (str "rate_limit") (toLowerStr msg) = true ∨
          isSubstr (str "quota") (toLowerStr msg) = true) := by
        intro h
        rcases h with h | h
        · exact h1.1 h
        · exact h1.2 h
      by_cases h2 : isSubstr (str "api key") (toLowerStr msg) = true ∨
          isSubstr (str "authentication") (toLowerStr msg) = true ∨
          isSubstr (str "401") (toLowerStr msg) = true ∨
          isSubstr (str "unauthorized") (toLowerStr msg) = true
      · have hb2 : (isSubstr (str "api key") (toLowerStr msg) ||
            isSubstr (str "authentication") (toLowerStr msg) ||
            isSubstr (str "401") (toLowerStr msg) ||
            isSubstr (str "unauthorized") (toLowerStr msg)) = true := by
          rcases h2 with h | h | h | h <;> simp [h]
        rw [if_pos hb2]
        exact ⟨iff_of_false (by decide) (fun h => h1n h),
          iff_of_true rfl ⟨h1n, h2⟩⟩
      · have hb2 : (isSubstr (str "api key") (toLowerStr msg) ||
            isSubstr (str "authentication") (toLowerStr msg) ||
            isSubstr (str "401") (toLowerStr msg) ||
            isSubstr (str "unauthorized") (toLowerStr msg)) = false := by
          push_neg at h2
          simp only [Bool.or_eq_false_iff]
          exact ⟨⟨⟨by simpa using h2.1, by simpa using h2.2.1⟩,
            by simpa using h2.2.2.1⟩, by simpa using h2.2.2.2⟩
        rw [if_neg (by simp [hb2])]
        exact ⟨iff_of_false (by decide) (fun h => h1n h),
          iff_of_false (by decide) (fun h => h2 h.2)⟩
  · intro env msg hkey hclass
    have hinit : llmClientInit none env = some env.GROQ_API_KEY := by
      simp [llmClientInit, hkey]
    simp only [runPipeline, baseInput, baseInputW, hinit, hclass]
    rfl
  · intro env gen hkey
    have hinit : llmClientInit none env = none := by
      simp [llmClientInit, hkey]
    simp only [runPipeline, baseInput, baseInputW, hinit]
    rfl

/-- Witness for C6 at concrete inputs: a rate-limit message maps to the
    quota kind with retry hint 300, and an empty key yields not-configured. -/
theorem claim_C6_witness :
    (classifyProviderError (str "rate_limit exceeded") = .quotaExceeded ∨
      True) ∧
    runPipeline (baseInput envKey (.raises (str "rate_limit exceeded"))) =
      .error ⟨.aiServiceQuotaExceeded, some 300⟩ ∧
    runPipeline (baseInput emptyEnv (.success (str "x"))) =
      .error ⟨.aiServiceNotConfigured, none⟩ :=
  ⟨Or.inl (by decide),
   claim_C6.2.1 envKey (str "rate_limit exceeded") (by decide) (by decide),
   claim_C6.2.2 emptyEnv (.success (str "x")) rfl⟩

/-- C5: a provider response that fails structured parsing becomes the
    degraded record (raw text, `parse_error=true`, human message), which is
    persisted and returned as a normal success — for every unparseable
    response the pipeline terminates successfully, and concretely so for
    `not json {broken`. -/
theorem claim_C5 :
    (∀ (env : Env) (text : Str), env.GROQ_API_KEY ≠ [] →
        parse_json_response text = none →
        runPipeline (baseInput env (.success text)) =
          .ok ⟨degraded_plan text, none, weatherSentinel⟩) ∧
    parse_json_response (str "not json \x7bbroken") = none ∧
    runPipeline (baseInput envKey (.success (str "not json \x7bbroken"))) =
      .ok ⟨degraded_plan (str "not json \x7bbroken"), none, weatherSentinel⟩ := by
  refine ⟨?_, rfl, rfl⟩
  intro env text hkey hparse
  have hinit : llmClientInit none env = some env.GROQ_API_KEY := by
    simp [llmClientInit, hkey]
  have hplan : plan_data_step env text = .ok (degraded_plan text) := by
    simp [plan_data_step, hparse]
  simp only [runPipeline, baseInput, baseInputW, hinit, hplan]
  rfl

/-- Witness for C5 at the concrete broken response. -/
theorem claim_C5_witness :
    envKey.GROQ_API_KEY ≠ [] ∧
    parse_json_response (str "not json \x7bbroken") = none ∧
    runPipeline (baseInput envKey (.success (str "not json \x7bbroken"))) =
      .ok ⟨degraded_plan (str "not json \x7bbroken"), none, weatherSentinel⟩ :=
  ⟨by decide, rfl, claim_C5.1 envKey _ (by decide) rfl⟩

/-! ### Whitespace stripping lemmas for the response validator -/

theorem lstrip_cons_of_not_space {c : Char} {s : Str} (h : pyIsSpace c = false) :
    lstrip (c :: s) = c :: s := by
  simp [lstrip, List.dropWhile_cons, h]

theorem rstrip_append_of_not_space {d : Char} {s : Str}
    (h : pyIsSpace d = false) : rstrip (s ++ [d]) = s ++ [d] := by
  simp [rstrip, List.dropWhile_cons, h]

theorem strip_of_ends {c d : Char} {mid : Str} (hc : pyIsSpace c = false)
    (hd : pyIsSpace d = false) :
    strip (c :: (mid ++ [d])) = c :: (mid ++ [d]) := by
  unfold strip
  rw [lstrip_cons_of_not_space hc,
    show c :: (mid ++ [d]) = (c :: mid) ++ [d] by simp,
    rstrip_append_of_not_space hd]

theorem rstrip_append_ws {d : Char} {s : Str} (h : pyIsSpace d = true) :
    rstrip (s ++ [d]) = rstrip s := by
  simp [rstrip, List.dropWhile_cons, h]

theorem strip_append_ws {d : Char} {s : Str} (h : pyIsSpace d = true) :
    strip (s ++ [d]) = strip s := by
  unfold strip lstrip
  rw [List.dropWhile_append]
  by_cases he : (s.dropWhile pyIsSpace).isEmpty
  · rw [if_pos he]
    have h1 : List.dropWhile pyIsSpace [d] = [] := by
      simp [List.dropWhile_cons, h]
    have h2 : s.dropWhile pyIsSpace = [] := by
      simpa [List.isEmpty_iff] using he
    rw [h1, h2]
  · rw [if_neg he]
    exact rstrip_append_ws h

theorem parse_json_response_fenced (first body : Str)
    (hfirst : '\n' ∉ first)
    (hbj : (str "json\n").isPrefixOf (strip body) = false) :
    parse_json_response (str "```" ++ first ++ '\n' :: body ++ str "\n```") =
      json_loads (strip body) := by
  have hW : str "```" ++ first ++ '\n' :: body ++ str "\n```" =
      '`' :: (('`' :: '`' :: (first ++ '\n' :: body ++ '\n' :: '`' :: '`' :: [])) ++
        ['`']) := by
    show ['`', '`', '`'] ++ first ++ '\n' :: body ++ ['\n', '`', '`', '`'] = _
    simp
  simp only [parse_json_response]
  rw [hW, strip_of_ends (by decide) (by decide), ← hW]
  have hpre : (str "```").isPrefixOf
      (str "```" ++ first ++ '\n' :: body ++ str "\n```") = true := by
    apply List.isPrefixOf_iff_prefix.mpr
    show ['`', '`', '`'] <+: ['`', '`', '`'] ++ _
    exact List.prefix_append _ _
  rw [if_pos hpre]
  have hsplit : splitFirst '\n'
      (str "```" ++ first ++ '\n' :: body ++ str "\n```") =
      some (str "```" ++ first, body ++ str "\n```") := by
    rw [show str "```" ++ first ++ '\n' :: body ++ str "\n```" =
      (str "```" ++ first) ++ '\n' :: (body ++ str "\n```") by simp]
    apply splitFirst_append
    intro hm
    rcases List.mem_append.mp hm with hm | hm
    · exact absurd hm (by decide)
    · exact hfirst hm
  rw [hsplit]
  have hsuf : (str "```").isSuffixOf (body ++ str "\n```") = true := by
    apply List.isSuffixOf_iff_suffix.mpr
    show ['`', '`', '`'] <:+ body ++ ['\n', '`', '`', '`']
    rw [show body ++ ['\n', '`', '`', '`'] =
      (body ++ ['\n']) ++ ['`', '`', '`'] by simp]
    exact List.suffix_append _ _
  rw [if_pos hsuf]
  have hlen : (body ++ ['\n']).length =
      (body ++ str "\n```").length - 3 := by
    simp [str]
  have htake : (body ++ str "\n```").take ((body ++ str "\n```").length - 3) =
      body ++ ['\n'] := by
    rw [show body ++ str "\n```" = (body ++ ['\n']) ++ ['`', '`', '`'] by
      rw [show str "\n```" = ['\n', '`', '`', '`'] from rfl]; simp]
    rw [show ((body ++ ['\n']) ++ ['`', '`', '`']).length - 3 =
      (body ++ ['\n']).length by simp]
    exact List.take_left _ _
  rw [htake, strip_append_ws (by decide)]
  rw [if_neg (by simp [hbj])]

/-- C7: the validator strips a leading fence line (with any language tag) and
    a trailing fence, then a bare `json` line, and parses the remainder: for
    any tag line and body the fenced input parses as the stripped body does,
    and the concrete fenced plan parses to the plan object with no fence
    markers left. -/
theorem claim_C7 :
    (∀ first body : Str, '\n' ∉ first →
        (str "json\n").isPrefixOf (strip body) = false →
        parse_json_response (str "```" ++ first ++ '\n' :: body ++ str "\n```") =
          json_loads (strip body)) ∧
    parse_json_response
        (str "```json\n\x7b\"plan_title\":\"T\",\"activities\":[]\x7d\n```") =
      some (.jobj [(str "plan_title", .jstr (str "T")),
                   (str "activities", .jarr [])]) :=
  ⟨parse_json_response_fenced, rfl⟩

/-- Witness for C7 at a concrete fenced input. -/
theorem claim_C7_witness :
    ('\n' ∉ str "json") ∧
    (str "json\n").isPrefixOf (strip (str "\x7b\"a\":1\x7d")) = false ∧
    parse_json_response
        (str "```" ++ str "json" ++ '\n' :: str "\x7b\"a\":1\x7d" ++ str "\n```") =
      json_loads (strip (str "\x7b\"a\":1\x7d")) :=
  ⟨by decide, by decide, claim_C7.1 (str "json") _ (by decide) (by decide)⟩

/-! ### Activity-processing lemmas -/

theorem dictSetJ_get_ne {d : List (Str × JsonVal)} {key k : Str} {v : JsonVal}
    (h : k ≠ key) : dictGetJ (dictSetJ d key v) k = dictGetJ d k := by
  have hkk : (decide (key = k)) = false := by
    simp only [decide_eq_false_iff_not]
    exact fun e => h e.symm
  induction d with
  | nil =>
    simp only [dictSetJ, dictGetJ, List.find?, hkk]
  | cons kv rest ih =>
    by_cases hk : kv.1 = key
    · have hnk : (decide (kv.1 = k)) = false := by
        simp only [decide_eq_false_iff_not]
        exact fun e => h (hk.symm.trans e).symm
      simp only [dictSetJ, if_pos hk, dictGetJ, List.find?, hkk, hnk]
    · simp only [dictSetJ, if_neg hk, dictGetJ, List.find?]
      by_cases hq : kv.1 = k
      · rw [show (decide (kv.1 = k)) = true by simp [hq]]
      · rw [show (decide (kv.1 = k)) = false by simp [hq]]
        exact ih

theorem process_activity_get_ne {env : Env} {a : List (Str × JsonVal)}
    {k : Str} (h : k ≠ str "booking_url") :
    dictGetJ (process_activity env a) k = dictGetJ a k := by
  rcases hb : dictGetJ a (str "booking_url") with _ | v
  · simp only [process_activity, hb]
  · simp only [process_activity, hb]
    by_cases ht : pyTruthy v = true
    · rw [if_pos ht]
      exact dictSetJ_get_ne h
    · rw [if_neg ht]

theorem mapM_process_jobj (env : Env) :
    ∀ acts : List (List (Str × JsonVal)),
      (acts.map JsonVal.jobj).mapM (process_one_activity env) =
        .ok ((acts.map fun a => process_activity env a).map JsonVal.jobj) := by
  intro acts
  induction acts with
  | nil => rfl
  | cons a rest ih =>
    simp only [List.map_cons, List.mapM_cons, ih, process_one_activity]
    rfl

/-- C8: the affiliate pass over a list of activity records returns a new list
    of the same length with the records processed in order, and in each
    record every field other than `booking_url` (the 1-based `order` value in
    particular) keeps its value; the embedding is pure, so the input list and
    records are not mutated by construction. -/
theorem claim_C8 (env : Env) (acts : List (List (Str × JsonVal))) :
    process_plan_activities env (acts.map JsonVal.jobj) =
      .ok ((acts.map fun a => process_activity env a).map JsonVal.jobj) ∧
    ((acts.map fun a => process_activity env a).map JsonVal.jobj).length =
      (acts.map JsonVal.jobj).length ∧
    (∀ a ∈ acts, ∀ k : Str, k ≠ str "booking_url" →
      dictGetJ (process_activity env a) k = dictGetJ a k) := by
  refine ⟨?_, by simp, fun a _ k hk => process_activity_get_ne hk⟩
  unfold process_plan_activities
  by_cases he : acts = []
  · subst he; rfl
  · rw [if_neg (by simp [he]), mapM_process_jobj]

/-- Witness for C8 at a concrete activity list: `order` is untouched. -/
theorem claim_C8_witness :
    ([(str "order", JsonVal.jint 1),
      (str "booking_url", JsonVal.jstr (str "https://viator.com/t"))] ∈
      [[(str "order", JsonVal.jint 1),
        (str "booking_url", JsonVal.jstr (str "https://viator.com/t"))]]) ∧
    dictGetJ
        (process_activity envViator
          [(str "order", JsonVal.jint 1),
           (str "booking_url", JsonVal.jstr (str "https://viator.com/t"))])
        (str "order") =
      dictGetJ
        [(str "order", JsonVal.jint 1),
         (str "booking_url", JsonVal.jstr (str "https://viator.com/t"))]
        (str "order") :=
  ⟨List.mem_singleton.mpr rfl,
   (claim_C8 envViator
      [[(str "order", JsonVal.jint 1),
        (str "booking_url", JsonVal.jstr (str "https://viator.com/t"))]]).2.2 _
     (List.mem_singleton.mpr rfl) _ (by decide)⟩

/-- Two weather outcomes that leave `weather_data` equal (in particular any
    two of: request exception/timeout, a non-200 status, a 200 body that
    fails JSON decoding — all give `None`) produce identical pipeline runs:
    the soft-failure modes the fetch guards against cannot influence the
    terminal outcome. -/
theorem runPipeline_weather_data_invariant (inp : PipelineInput)
    (w1 w2 : WeatherOutcome) (h1 : weather_data_of w1 = weather_data_of w2) :
    runPipeline { inp with weather := w1 } =
      runPipeline { inp with weather := w2 } := by
  simp only [runPipeline, h1]

/-- C1 (code at the failing input): the three guarded weather failure modes —
    request exception/timeout, non-2xx status, and a body that fails JSON
    decoding — all proceed with the unavailable sentinel and the run still
    succeeds; but a 200 response whose well-formed JSON body has an empty
    `daily` list (a malformed weather body) makes the summary construction
    raise outside the guard, turning the same run into a terminal
    internal-server failure caused by the weather step alone. -/
theorem claim_C1 :
    runPipeline (baseInputW envKey .failure (.success (str "\x7b\x7d"))) =
      .ok ⟨.jobj [], none, weatherSentinel⟩ ∧
    runPipeline (baseInputW envKey (.response 500 (some (.jobj [])))
        (.success (str "\x7b\x7d"))) =
      .ok ⟨.jobj [], none, weatherSentinel⟩ ∧
    runPipeline (baseInputW envKey (.response 200 none)
        (.success (str "\x7b\x7d"))) =
      .ok ⟨.jobj [], none, weatherSentinel⟩ ∧
    runPipeline (baseInputW envKey (.response 200 (some weatherGoodDaily))
        (.success (str "\x7b\x7d"))) =
      .ok ⟨.jobj [],
        some (.jobj
          [(str "temperature_2m_min", .jarr [.jint 10]),
           (str "temperature_2m_max", .jarr [.jint 20]),
           (str "precipitation_sum", .jarr [.jfloat (str "1.5")]),
           (str "windspeed_10m_max", .jarr [.jint 30])]),
        str "Temperature: 10°C - 20°C, Precipitation: 1.5mm, Wind: 30km/h"⟩ ∧
    runPipeline (baseInputW envKey (.response 200 (some weatherBadDaily))
        (.success (str "\x7b\x7d"))) =
      .error ⟨.unhandledException, none⟩ ∧
    buildWeatherSummary (some weatherBadDaily) = .error () :=
  ⟨rfl, rfl, rfl, rfl, rfl, rfl⟩

/-! ### Character code lemmas -/

theorem char_toNat_valid (c : Char) : Nat.isValidChar c.toNat := by
  rcases c.valid with h | ⟨h1, h2⟩
  · exact Or.inl (by exact h)
  · exact Or.inr ⟨by exact h1, by exact h2⟩

theorem toNat_ofNat_valid {n : Nat} (h : Nat.isValidChar n) :
    (Char.ofNat n).toNat = n := by
  simp [Char.ofNat, dif_pos h, Char.ofNatAux, Char.toNat, UInt32.toNat]

theorem toNat_ofNat_small {n : Nat} (h : n < 0xd800) :
    (Char.ofNat n).toNat = n :=
  toNat_ofNat_valid (Or.inl h)

theorem ofNat_toNat_char (c : Char) : Char.ofNat c.toNat = c := by
  apply Char.eq_of_val_eq
  apply UInt32.toNat.inj
  simp only [Char.ofNat, Char.ofNatAux, Char.toNat, UInt32.toNat]
  split
  · simp
  · exact absurd (char_toNat_valid c) (by assumption)

theorem char_le_iff_toNat {a b : Char} : a ≤ b ↔ a.toNat ≤ b.toNat := by
  rw [Char.le_def, UInt32.le_def]
  rfl

theorem char_eq_iff_toNat {a b : Char} : a = b ↔ a.toNat = b.toNat := by
  constructor
  · intro h; rw [h]
  · intro h
    have := congrArg Char.ofNat h
    rwa [ofNat_toNat_char, ofNat_toNat_char] at this

theorem isAlpha_iff {c : Char} :
    c.isAlpha = true ↔
      (65 ≤ c.toNat ∧ c.toNat ≤ 90) ∨ (97 ≤ c.toNat ∧ c.toNat ≤ 122) := by
  simp only [Char.isAlpha, Char.isUpper, Char.isLower, Bool.or_eq_true,
    Bool.and_eq_true, decide_eq_true_iff, char_le_iff_toNat]
  rfl

theorem isDigit_iff {c : Char} :
    c.isDigit = true ↔ 48 ≤ c.toNat ∧ c.toNat ≤ 57 := by
  simp only [Char.isDigit, Bool.and_eq_true, decide_eq_true_iff,
    char_le_iff_toNat]
  rfl

theorem toLower_toNat (c : Char) :
    (Char.toLower c).toNat =
      if 65 ≤ c.toNat ∧ c.toNat ≤ 90 then c.toNat + 32 else c.toNat := by
  simp only [Char.toLower]
  split
  · rename_i h
    rw [toNat_ofNat_small (by omega)]
  · rfl

theorem toLower_toLower (c : Char) :
    Char.toLower (Char.toLower c) = Char.toLower c := by
  rw [char_eq_iff_toNat, toLower_toNat, toLower_toNat]
  by_cases h : 65 ≤ c.toNat ∧ c.toNat ≤ 90
  · simp only [if_pos h]
    rw [if_neg (by omega)]
  · simp only [if_neg h]

theorem isAlpha_toLower (c : Char) :
    (Char.toLower c).isAlpha = c.isAlpha := by
  by_cases h : c.isAlpha = true
  · rw [h]
    rw [isAlpha_iff] at h ⊢
    rw [toLower_toNat]
    split <;> omega
  · rw [Bool.not_eq_true] at h
    rw [h]
    rw [Bool.eq_false_iff, Ne, isAlpha_iff] at h ⊢
    rw [toLower_toNat]
    split <;> omega

theorem isSchemeChar_toLower (c : Char) :
    isSchemeChar (Char.toLower c) = isSchemeChar c := by
  unfold isSchemeChar
  rw [isAlpha_toLower]
  by_cases ha : c.isAlpha = true
  · simp [ha]
  · have hnot : ¬(65 ≤ c.toNat ∧ c.toNat ≤ 90) := by
      intro hc
      exact absurd (isAlpha_iff.mpr (Or.inl hc)) ha
    have : Char.toLower c = c := by
      rw [char_eq_iff_toNat, toLower_toNat, if_neg hnot]
    rw [this]

theorem toLowerStr_idem (s : Str) : toLowerStr (toLowerStr s) = toLowerStr s := by
  unfold toLowerStr
  rw [List.map_map]
  apply List.map_congr_left
  intro c _
  exact toLower_toLower c

/-! ### UTF-8 round trip -/

theorem utf8_decode2 (n : Nat) (bs : List Nat) (hlo : 0x80 ≤ n) (hhi : n < 0x800) :
    utf8DecodeAux none ((0xC0 + n / 64) :: (0x80 + n % 64) :: bs) =
      Char.ofNat n :: utf8DecodeAux none bs := by
  have hlead : utf8IsLead (0xC0 + n / 64) = true := by
    unfold utf8IsLead
    simp only [Bool.or_eq_true, Bool.and_eq_true, decide_eq_true_iff]
    omega
  have hcont : utf8ContOk (0xC0 + n / 64) 0 (0x80 + n % 64) = true := by
    unfold utf8ContOk cont1Lo cont1Hi
    rw [if_pos rfl]
    simp only [Bool.and_eq_true, decide_eq_true_iff]
    constructor <;> (repeat' split) <;> omega
  have hneed : utf8Need (0xC0 + n / 64) = 1 := by
    unfold utf8Need; rw [if_pos (by omega)]
  have hacc : utf8Acc (0xC0 + n / 64) [0x80 + n % 64] = n := by
    unfold utf8Acc utf8Base
    simp only [List.foldl_cons, List.foldl_nil]
    rw [if_pos (by omega : 0xC0 + n / 64 ≤ 0xDF)]
    omega
  simp only [utf8DecodeAux, List.length_nil, List.nil_append]
  rw [if_neg (by omega : ¬ (0xC0 + n / 64 < 0x80)), if_pos hlead, if_pos hcont]
  rw [if_pos (by rw [hneed] : 0 + 1 = utf8Need (0xC0 + n / 64))]
  rw [hacc]

theorem utf8_decode3 (n : Nat) (bs : List Nat) (hlo : 0x800 ≤ n)
    (hhi : n < 0x10000) (hs : n < 0xd800 ∨ 0xdfff < n) :
    utf8DecodeAux none
        ((0xE0 + n / 4096) :: (0x80 + n / 64 % 64) :: (0x80 + n % 64) :: bs) =
      Char.ofNat n :: utf8DecodeAux none bs := by
  have hlead : utf8IsLead (0xE0 + n / 4096) = true := by
    unfold utf8IsLead
    simp only [Bool.or_eq_true, Bool.and_eq_true, decide_eq_true_iff]
    omega
  have hcont0 : utf8ContOk (0xE0 + n / 4096) 0 (0x80 + n / 64 % 64) = true := by
    unfold utf8ContOk cont1Lo cont1Hi
    rw [if_pos rfl]
    simp only [Bool.and_eq_true, decide_eq_true_iff]
    constructor <;> (repeat' split) <;> omega
  have hcont1 : utf8ContOk (0xE0 + n / 4096) (0 + 1) (0x80 + n % 64) = true := by
    unfold utf8ContOk isCont
    rw [if_neg (by omega)]
    simp only [Bool.and_eq_true, decide_eq_true_iff]
    omega
  have hneed : utf8Need (0xE0 + n / 4096) = 2 := by
    unfold utf8Need
    rw [if_neg (by omega), if_pos (by omega)]
  have hacc : utf8Acc (0xE0 + n / 4096) [0x80 + n / 64 % 64, 0x80 + n % 64] = n := by
    unfold utf8Acc utf8Base
    simp only [List.foldl_cons, List.foldl_nil]
    rw [if_neg (by omega : ¬ 0xE0 + n / 4096 ≤ 0xDF),
      if_pos (by omega : 0xE0 + n / 4096 ≤ 0xEF)]
    omega
  simp only [utf8DecodeAux, List.length_nil, List.length_cons, List.nil_append,
    List.cons_append]
  rw [if_neg (by omega : ¬ (0xE0 + n / 4096 < 0x80)), if_pos hlead, if_pos hcont0]
  rw [if_neg (by rw [hneed]; omega : ¬ (0 + 1 = utf8Need (0xE0 + n / 4096)))]
  rw [if_pos hcont1]
  rw [if_pos (by rw [hneed] : 0 + 1 + 1 = utf8Need (0xE0 + n / 4096))]
  rw [hacc]

theorem utf8_decode4 (n : Nat) (bs : List Nat) (hlo : 0x10000 ≤ n)
    (hhi : n < 0x110000) :
    utf8DecodeAux none
        ((0xF0 + n / 262144) :: (0x80 + n / 4096 % 64) :: (0x80 + n / 64 % 64) ::
          (0x80 + n % 64) :: bs) =
      Char.ofNat n :: utf8DecodeAux none bs := by
  have hlead : utf8IsLead (0xF0 + n / 262144) = true := by
    unfold utf8IsLead
    simp only [Bool.or_eq_true, Bool.and_eq_true, decide_eq_true_iff]
    omega
  have hcont0 : utf8ContOk (0xF0 + n / 262144) 0 (0x80 + n / 4096 % 64) = true := by
    unfold utf8ContOk cont1Lo cont1Hi
    rw [if_pos rfl]
    simp only [Bool.and_eq_true, decide_eq_true_iff]
    constructor <;> (repeat' split) <;> omega
  have hcont1 : utf8ContOk (0xF0 + n / 262144) (0 + 1) (0x80 + n / 64 % 64) = true := by
    unfold utf8ContOk isCont
    rw [if_neg (by omega)]
    simp only [Bool.and_eq_true, decide_eq_true_iff]
    omega
  have hcont2 : utf8ContOk (0xF0 + n / 262144) (0 + 1 + 1) (0x80 + n % 64) = true := by
    unfold utf8ContOk isCont
    rw [if_neg (by omega)]
    simp only [Bool.and_eq_true, decide_eq_true_iff]
    omega
  have hneed : utf8Need (0xF0 + n / 262144) = 3 := by
    unfold utf8Need
    rw [if_neg (by omega), if_neg (by omega)]
  have hacc : utf8Acc (0xF0 + n / 262144)
      [0x80 + n / 4096 % 64, 0x80 + n / 64 % 64, 0x80 + n % 64] = n := by
    unfold utf8Acc utf8Base
    simp only [List.foldl_cons, List.foldl_nil]
    rw [if_neg (by omega : ¬ 0xF0 + n / 262144 ≤ 0xDF),
      if_neg (by omega : ¬ 0xF0 + n / 262144 ≤ 0xEF)]
    omega
  simp only [utf8DecodeAux, List.length_nil, List.length_cons, List.nil_append,
    List.cons_append]
  rw [if_neg (by omega : ¬ (0xF0 + n / 262144 < 0x80)), if_pos hlead, if_pos hcont0]
  rw [if_neg (by rw [hneed]; omega : ¬ (0 + 1 = utf8Need (0xF0 + n / 262144)))]
  rw [if_pos hcont1]
  rw [if_neg (by rw [hneed]; omega : ¬ (0 + 1 + 1 = utf8Need (0xF0 + n / 262144)))]
  rw [if_pos hcont2]
  rw [if_pos (by rw [hneed] : 0 + 1 + 1 + 1 = utf8Need (0xF0 + n / 262144))]
  rw [hacc]

theorem utf8DecodeAux_encodeChar (c : Char) (bs : List Nat) :
    utf8DecodeAux none (utf8EncodeChar c ++ bs) = c :: utf8DecodeAux none bs := by
  have hv := char_toNat_valid c
  unfold Nat.isValidChar at hv
  have hofn : Char.ofNat c.toNat = c := ofNat_toNat_char c
  rcases Nat.lt_or_ge c.toNat 0x80 with h1 | h1
  · have he : utf8EncodeChar c = [c.toNat] := by
      simp only [utf8EncodeChar]; rw [if_pos h1]
    rw [he, List.cons_append, List.nil_append]
    simp only [utf8DecodeAux]
    rw [if_pos h1, hofn]
  · rcases Nat.lt_or_ge c.toNat 0x800 with h2 | h2
    · have he : utf8EncodeChar c = [0xC0 + c.toNat / 64, 0x80 + c.toNat % 64] := by
        simp only [utf8EncodeChar]; rw [if_neg (by omega), if_pos h2]
      rw [he]
      simp only [List.cons_append, List.nil_append]
      rw [utf8_decode2 c.toNat bs h1 h2, hofn]
    · rcases Nat.lt_or_ge c.toNat 0x10000 with h3 | h3
      · have he : utf8EncodeChar c =
            [0xE0 + c.toNat / 4096, 0x80 + c.toNat / 64 % 64, 0x80 + c.toNat % 64] := by
          simp only [utf8EncodeChar]
          rw [if_neg (by omega), if_neg (by omega), if_pos h3]
        rw [he]
        simp only [List.cons_append, List.nil_append]
        rw [utf8_decode3 c.toNat bs h2 h3 (by omega), hofn]
      · have h4 : c.toNat < 0x110000 := by omega
        have he : utf8EncodeChar c =
            [0xF0 + c.toNat / 262144, 0x80 + c.toNat / 4096 % 64,
             0x80 + c.toNat / 64 % 64, 0x80 + c.toNat % 64] := by
          simp only [utf8EncodeChar]
          rw [if_neg (by omega), if_neg (by omega), if_neg (by omega)]
        rw [he]
        simp only [List.cons_append, List.nil_append]
        rw [utf8_decode4 c.toNat bs h3 h4, hofn]

theorem utf8Decode_encode (s : Str) : utf8Decode (utf8Encode s) = s := by
  unfold utf8Decode
  induction s with
  | nil => rfl
  | cons c t ih =>
    unfold utf8Encode
    simp only [List.map_cons, List.flatten_cons]
    rw [utf8DecodeAux_encodeChar]
    unfold utf8Encode at ih
    rw [ih]

/-! ### Percent-encoding round trip -/

theorem utf8EncodeChar_lt {c : Char} : ∀ b ∈ utf8EncodeChar c, b < 0x100 := by
  intro b hb
  have hv := char_toNat_valid c
  unfold Nat.isValidChar at hv
  simp only [utf8EncodeChar] at hb
  split at hb
  · simp only [List.mem_singleton] at hb; omega
  · split at hb
    · simp only [List.mem_cons, List.not_mem_nil, or_false] at hb
      rcases hb with rfl | rfl <;> omega
    · split at hb
      · simp only [List.mem_cons, List.not_mem_nil, or_false] at hb
        rcases hb with rfl | rfl | rfl <;> omega
      · simp only [List.mem_cons, List.not_mem_nil, or_false] at hb
        rcases hb with rfl | rfl | rfl | rfl <;> omega

theorem utf8Encode_lt {s : Str} : ∀ b ∈ utf8Encode s, b < 0x100 := by
  intro b hb
  unfold utf8Encode at hb
  rw [List.mem_flatten] at hb
  obtain ⟨l, hl, hbl⟩ := hb
  rw [List.mem_map] at hl
  obtain ⟨c, _, rfl⟩ := hl
  exact utf8EncodeChar_lt b hbl

theorem hexDigit_facts {n : Nat} (h : n < 16) :
    hexVal (hexDigit n) = n ∧ isHexDigitPy (hexDigit n) = true ∧
    (hexDigit n).toNat ≤ 0x7E ∧ hexDigit n ≠ '&' ∧ hexDigit n ≠ '=' ∧
    hexDigit n ≠ '#' ∧ hexDigit n ≠ '?' ∧ hexDigit n ≠ '\t' ∧
    hexDigit n ≠ '\r' ∧ hexDigit n ≠ '\n' ∧ hexDigit n ≠ '+' ∧
    hexDigit n ≠ '%' := by
  interval_cases n <;> exact ⟨rfl, rfl, by decide, by decide, by decide, by decide,
    by decide, by decide, by decide, by decide, by decide, by decide⟩

theorem replaceChar_append (a b : Char) (x y : Str) :
    replaceChar a b (x ++ y) = replaceChar a b x ++ replaceChar a b y := by
  unfold replaceChar
  exact List.map_append _ x y

theorem mem_quotePlusByte {b : Nat} {c : Char} (hb : b < 0x100)
    (hc : c ∈ quotePlusByte b) :
    c.toNat ≤ 0x7E ∧ c ≠ '&' ∧ c ≠ '=' ∧ c ≠ '#' ∧ c ≠ '?' ∧
      c ≠ '\t' ∧ c ≠ '\r' ∧ c ≠ '\n' := by
  unfold quotePlusByte at hc
  split at hc
  · rename_i hsafe
    simp only [List.mem_singleton] at hc
    subst hc
    unfold alwaysSafeByte at hsafe
    simp only [Bool.or_eq_true, Bool.and_eq_true, decide_eq_true_iff] at hsafe
    have ht : (Char.ofNat b).toNat = b := toNat_ofNat_small (by omega)
    refine ⟨by omega, ?_, ?_, ?_, ?_, ?_, ?_, ?_⟩
    · rw [Ne, char_eq_iff_toNat, ht, show ('&' : Char).toNat = 38 from rfl]; omega
    · rw [Ne, char_eq_iff_toNat, ht, show ('=' : Char).toNat = 61 from rfl]; omega
    · rw [Ne, char_eq_iff_toNat, ht, show ('#' : Char).toNat = 35 from rfl]; omega
    · rw [Ne, char_eq_iff_toNat, ht, show ('?' : Char).toNat = 63 from rfl]; omega
    · rw [Ne, char_eq_iff_toNat, ht, show ('\t' : Char).toNat = 9 from rfl]; omega
    · rw [Ne, char_eq_iff_toNat, ht, show ('\r' : Char).toNat = 13 from rfl]; omega
    · rw [Ne, char_eq_iff_toNat, ht, show ('\n' : Char).toNat = 10 from rfl]; omega
  · split at hc
    · simp only [List.mem_singleton] at hc
      subst hc
      exact ⟨by decide, by decide, by decide, by decide, by decide, by decide,
        by decide, by decide⟩
    · simp only [List.mem_cons, List.not_mem_nil, or_false] at hc
      rcases hc with rfl | rfl | rfl
      · exact ⟨by decide, by decide, by decide, by decide, by decide, by decide,
          by decide, by decide⟩
      · obtain ⟨_, _, h3, h4, h5, h6, h7, h8, h9, h10, _, _⟩ :=
          hexDigit_facts (show b / 16 < 16 by omega)
        exact ⟨h3, h4, h5, h6, h7, h8, h9, h10⟩
      · obtain ⟨_, _, h3, h4, h5, h6, h7, h8, h9, h10, _, _⟩ :=
          hexDigit_facts (show b % 16 < 16 by omega)
        exact ⟨h3, h4, h5, h6, h7, h8, h9, h10⟩

theorem replaceChar_quotePlusByte {b : Nat} (hb : b < 0x100) :
    replaceChar '+' ' ' (quotePlusByte b) =
      if alwaysSafeByte b then [Char.ofNat b]
      else if b = 0x20 then [' ']
      else ['%', hexDigit (b / 16), hexDigit (b % 16)] := by
  unfold quotePlusByte replaceChar
  split
  · rename_i hsafe
    simp only [List.map_cons, List.map_nil]
    rw [if_neg]
    unfold alwaysSafeByte at hsafe
    simp only [Bool.or_eq_true, Bool.and_eq_true, decide_eq_true_iff] at hsafe
    rw [char_eq_iff_toNat, toNat_ofNat_small (by omega),
      show ('+' : Char).toNat = 43 from rfl]
    omega
  · split
    · simp
    · simp only [List.map_cons, List.map_nil]
      obtain ⟨_, _, _, _, _, _, _, _, _, _, hp1, _⟩ :=
        hexDigit_facts (show b / 16 < 16 by omega)
      obtain ⟨_, _, _, _, _, _, _, _, _, _, hp2, _⟩ :=
        hexDigit_facts (show b % 16 < 16 by omega)
      rw [if_neg (by decide), if_neg hp1, if_neg hp2]

theorem unquoteToBytesAux_block {b : Nat} (hb : b < 0x100) (rest : Str) :
    unquoteToBytesAux none
        ((if alwaysSafeByte b then [Char.ofNat b]
          else if b = 0x20 then [' ']
          else ['%', hexDigit (b / 16), hexDigit (b % 16)]) ++ rest) =
      b :: unquoteToBytesAux none rest := by
  split
  · rename_i hsafe
    unfold alwaysSafeByte at hsafe
    simp only [Bool.or_eq_true, Bool.and_eq_true, decide_eq_true_iff] at hsafe
    have ht : (Char.ofNat b).toNat = b := toNat_ofNat_small (by omega)
    simp only [List.cons_append, List.nil_append, unquoteToBytesAux]
    rw [if_neg (by
      rw [char_eq_iff_toNat, ht, show ('%' : Char).toNat = 37 from rfl]
      omega)]
    rw [ht]
    rfl
  · split
    · rename_i hsp
      simp only [List.cons_append, List.nil_append, unquoteToBytesAux]
      rw [if_neg (by decide), hsp]
      rfl
    · obtain ⟨hv1, hh1, _, _, _, _, _, _, _, _, _, _⟩ :=
        hexDigit_facts (show b / 16 < 16 by omega)
      obtain ⟨hv2, hh2, _, _, _, _, _, _, _, _, _, _⟩ :=
        hexDigit_facts (show b % 16 < 16 by omega)
      simp only [List.cons_append, List.nil_append, unquoteToBytesAux]
      rw [if_pos trivial, if_pos hh1, if_pos hh2, hv1, hv2]
      congr 1
      omega

theorem unquote_quoted_bytes :
    ∀ (bytes : List Nat), (∀ b ∈ bytes, b < 0x100) →
      unquoteToBytes (replaceChar '+' ' ' ((bytes.map quotePlusByte).flatten)) =
        bytes := by
  intro bytes
  induction bytes with
  | nil => intro _; rfl
  | cons b t ih =>
    intro h
    have hb : b < 0x100 := h b (List.mem_cons_self _ _)
    unfold unquoteToBytes
    simp only [List.map_cons, List.flatten_cons]
    rw [replaceChar_append, replaceChar_quotePlusByte hb,
      unquoteToBytesAux_block hb]
    unfold unquoteToBytes at ih
    rw [ih (fun x hx => h x (List.mem_cons_of_mem _ hx))]

theorem quoted_ascii {b : Nat} (hb : b < 0x100) {c : Char}
    (hc : c ∈ replaceChar '+' ' ' (quotePlusByte b)) : isAsciiChar c = true := by
  rw [replaceChar_quotePlusByte hb] at hc
  unfold isAsciiChar
  split at hc
  · rename_i hsafe
    simp only [List.mem_singleton] at hc
    subst hc
    unfold alwaysSafeByte at hsafe
    simp only [Bool.or_eq_true, Bool.and_eq_true, decide_eq_true_iff] at hsafe
    rw [toNat_ofNat_small (by omega)]
    simp only [decide_eq_true_iff]
    omega
  · split at hc
    · simp only [List.mem_singleton] at hc
      subst hc; decide
    · simp only [List.mem_cons, List.not_mem_nil, or_false] at hc
      obtain ⟨_, _, ha1, _, _, _, _, _, _, _, _, _⟩ :=
        hexDigit_facts (show b / 16 < 16 by omega)
      obtain ⟨_, _, ha2, _, _, _, _, _, _, _, _, _⟩ :=
        hexDigit_facts (show b % 16 < 16 by omega)
      rcases hc with rfl | rfl | rfl
      · decide
      · simp only [decide_eq_true_iff]; omega
      · simp only [decide_eq_true_iff]; omega

theorem unquoteAux_ascii :
    ∀ (t acc : Str), (∀ c ∈ t, isAsciiChar c = true) →
      unquoteAux acc t = utf8Decode (unquoteToBytes (acc ++ t)) := by
  intro t
  induction t with
  | nil =>
    intro acc _
    unfold unquoteAux
    rw [List.append_nil]
  | cons c r ih =>
    intro acc h
    unfold unquoteAux
    rw [if_pos (h c (List.mem_cons_self _ _))]
    rw [ih (acc ++ [c]) (fun x hx => h x (List.mem_cons_of_mem _ hx))]
    rw [← List.append_cons]

theorem unquote_quote_plus (s : Str) :
    unquote (replaceChar '+' ' ' (quote_plus s)) = s := by
  unfold unquote quote_plus
  rw [unquoteAux_ascii _ [] ?hasc]
  case hasc =>
    intro c hc
    unfold replaceChar at hc
    rw [List.mem_map] at hc
    obtain ⟨c0, hc0, rfl⟩ := hc
    rw [List.mem_flatten] at hc0
    obtain ⟨l, hl, hc0l⟩ := hc0
    rw [List.mem_map] at hl
    obtain ⟨b, hbmem, rfl⟩ := hl
    have hb : b < 0x100 := utf8Encode_lt b hbmem
    apply quoted_ascii hb
    unfold replaceChar
    exact List.mem_map_of_mem _ hc0l
  rw [List.nil_append, unquote_quoted_bytes (utf8Encode s) (fun b hb => utf8Encode_lt b hb)]
  exact utf8Decode_encode s

/-! ### Query-string round trip -/

theorem mem_quote_plus {s : Str} {c : Char} (hc : c ∈ quote_plus s) :
    c.toNat ≤ 0x7E ∧ c ≠ '&' ∧ c ≠ '=' ∧ c ≠ '#' ∧ c ≠ '?' ∧
      c ≠ '\t' ∧ c ≠ '\r' ∧ c ≠ '\n' := by
  unfold quote_plus at hc
  rw [List.mem_flatten] at hc
  obtain ⟨l, hl, hcl⟩ := hc
  rw [List.mem_map] at hl
  obtain ⟨b, hbmem, rfl⟩ := hl
  exact mem_quotePlusByte (utf8Encode_lt b hbmem) hcl

theorem splitAll_no_sep {sep : Char} :
    ∀ {s : Str}, (∀ c ∈ s, c ≠ sep) → splitAll sep s = [s] := by
  intro s
  induction s with
  | nil => intro _; rfl
  | cons c rest ih =>
    intro h
    unfold splitAll
    rw [if_neg (h c (List.mem_cons_self _ _))]
    rw [ih (fun x hx => h x (List.mem_cons_of_mem _ hx))]

theorem splitAll_append_sep {sep : Char} :
    ∀ {a : Str} (rest : Str), (∀ c ∈ a, c ≠ sep) →
      splitAll sep (a ++ sep :: rest) = a :: splitAll sep rest := by
  intro a
  induction a with
  | nil =>
    intro rest _
    rw [List.nil_append]
    rw [splitAll]
    rw [if_pos rfl]
  | cons c a2 ih =>
    intro rest h
    rw [List.cons_append]
    rw [splitAll]
    rw [if_neg (h c (List.mem_cons_self _ _))]
    rw [ih rest (fun x hx => h x (List.mem_cons_of_mem _ hx))]

theorem parseQslField_encoded (k v : Str) :
    parseQslField (quote_plus k ++ '=' :: quote_plus v) = (k, v) := by
  unfold parseQslField
  rw [splitFirst_append _ (fun hm => (mem_quote_plus hm).2.2.1 rfl)]
  simp only
  rw [unquote_quote_plus, unquote_quote_plus]

theorem field_no_amp (p : Str × Str) :
    ∀ c ∈ quote_plus p.1 ++ '=' :: quote_plus p.2, c ≠ '&' := by
  intro c hc
  rcases List.mem_append.mp hc with h | h
  · exact (mem_quote_plus h).2.1
  · rcases List.mem_cons.mp h with rfl | h
    · decide
    · exact (mem_quote_plus h).2.1

theorem splitAll_intercalate_fields :
    ∀ (t : List (Str × Str)) (kv : Str × Str),
      splitAll '&' (List.intercalate ['&']
        ((kv :: t).map fun p => quote_plus p.1 ++ '=' :: quote_plus p.2)) =
        (kv :: t).map fun p => quote_plus p.1 ++ '=' :: quote_plus p.2 := by
  intro t
  induction t with
  | nil =>
    intro kv
    simp only [List.map_cons, List.map_nil]
    rw [show List.intercalate ['&'] [quote_plus kv.1 ++ '=' :: quote_plus kv.2] =
        quote_plus kv.1 ++ '=' :: quote_plus kv.2 from by simp [List.intercalate]]
    exact splitAll_no_sep (field_no_amp kv)
  | cons kv2 t2 ih =>
    intro kv
    simp only [List.map_cons] at ih ⊢
    rw [show List.intercalate ['&']
          ((quote_plus kv.1 ++ '=' :: quote_plus kv.2) ::
            (quote_plus kv2.1 ++ '=' :: quote_plus kv2.2) ::
            t2.map fun p => quote_plus p.1 ++ '=' :: quote_plus p.2) =
        (quote_plus kv.1 ++ '=' :: quote_plus kv.2) ++ '&' ::
          List.intercalate ['&']
            ((quote_plus kv2.1 ++ '=' :: quote_plus kv2.2) ::
              t2.map fun p => quote_plus p.1 ++ '=' :: quote_plus p.2) from by
      simp [List.intercalate, List.intersperse]]
    rw [splitAll_append_sep _ (field_no_amp kv)]
    rw [ih kv2]

theorem filterMap_fields :
    ∀ (l : List (Str × Str)),
      (l.map fun p => quote_plus p.1 ++ '=' :: quote_plus p.2).filterMap
        (fun nv => if nv = [] then none else some (parseQslField nv)) = l := by
  intro l
  induction l with
  | nil => rfl
  | cons p t ih =>
    simp only [List.map_cons, List.filterMap_cons]
    rw [if_neg (by simp : ¬(quote_plus p.1 ++ '=' :: quote_plus p.2 = []))]
    rw [parseQslField_encoded, ih]

theorem parse_qsl_urlencode (d : List (Str × Str)) :
    parse_qsl (urlencode d) = d := by
  cases d with
  | nil => rfl
  | cons kv t =>
    unfold urlencode parse_qsl
    rw [show str "&" = ['&'] from rfl]
    have hqs : List.intercalate ['&']
        ((kv :: t).map fun p => quote_plus p.1 ++ '=' :: quote_plus p.2) ≠ [] := by
      cases t with
      | nil => simp [List.intercalate]
      | cons kv2 t2 => simp [List.intercalate, List.intersperse]
    rw [if_neg hqs]
    rw [splitAll_intercalate_fields t kv]
    exact filterMap_fields (kv :: t)

theorem flat_roundtrip {d : List (Str × Str)} (h : (d.map Prod.fst).Nodup) :
    flat_params_of (parse_qs (urlencode d)) = d := by
  rw [flat_parse_qs, parse_qsl_urlencode]
  exact keepFirstByKey_of_nodup h

theorem keepFirstByKey_subset :
    ∀ (l : List (Str × Str)) {x : Str × Str}, x ∈ keepFirstByKey l → x ∈ l := by
  intro l
  induction l using keepFirstByKey.induct with
  | case1 => intro x hx; rw [keepFirstByKey] at hx; exact hx
  | case2 kv rest ih =>
    intro x hx
    rw [keepFirstByKey] at hx
    rcases List.mem_cons.mp hx with rfl | hx2
    · exact List.mem_cons_self _ _
    · exact List.mem_cons_of_mem _ (List.mem_filter.mp (ih hx2)).1

theorem keepFirstByKey_keys_nodup :
    ∀ (l : List (Str × Str)), ((keepFirstByKey l).map Prod.fst).Nodup := by
  intro l
  induction l using keepFirstByKey.induct with
  | case1 => rw [keepFirstByKey]; exact List.nodup_nil
  | case2 kv rest ih =>
    rw [keepFirstByKey]
    simp only [List.map_cons, List.nodup_cons]
    refine ⟨?_, ih⟩
    intro hmem
    rw [List.mem_map] at hmem
    obtain ⟨x, hx, hx1⟩ := hmem
    have hxf := (List.mem_filter.mp (keepFirstByKey_subset _ hx)).2
    rw [hx1] at hxf
    simp at hxf

theorem dictContains_false_iff {d : List (Str × Str)} {k : Str} :
    dictContains d k = false ↔ k ∉ d.map Prod.fst := by
  unfold dictContains
  rw [← Bool.not_eq_true, List.any_eq_true]
  simp only [decide_eq_true_iff, List.mem_map]

theorem addMissingParams_keys_nodup :
    ∀ (active flat : List (Str × Str)), (flat.map Prod.fst).Nodup →
      ((addMissingParams flat active).map Prod.fst).Nodup := by
  intro active
  induction active with
  | nil => intro flat h; exact h
  | cons kv rest ih =>
    intro flat h
    rw [addMissingParams]
    by_cases hc : dictContains flat kv.1 = true
    · rw [if_pos hc]; exact ih flat h
    · rw [if_neg hc]
      apply ih
      rw [List.map_append]
      rw [List.nodup_append]
      refine ⟨h, List.nodup_singleton _, ?_⟩
      intro x hx hx2
      simp only [List.map_cons, List.map_nil, List.mem_singleton] at hx2
      subst hx2
      exact (dictContains_false_iff.mp (Bool.not_eq_true _ ▸ hc)) hx

theorem addMissingParams_ne_nil :
    ∀ (active flat : List (Str × Str)), flat ≠ [] ∨ active ≠ [] →
      addMissingParams flat active ≠ [] := by
  intro active
  induction active with
  | nil =>
    intro flat h
    rcases h with h | h
    · exact h
    · exact absurd rfl h
  | cons kv rest ih =>
    intro flat _
    rw [addMissingParams]
    by_cases hc : dictContains flat kv.1 = true
    · rw [if_pos hc]
      apply ih
      left
      intro he
      rw [he] at hc
      simp [dictContains] at hc
    · rw [if_neg hc]
      apply ih
      left
      simp

theorem urlencode_ne_nil {d : List (Str × Str)} (h : d ≠ []) :
    urlencode d ≠ [] := by
  cases d with
  | nil => exact absurd rfl h
  | cons kv t =>
    unfold urlencode
    rw [show str "&" = ['&'] from rfl]
    cases t with
    | nil => simp [List.intercalate]
    | cons kv2 t2 => simp [List.intercalate, List.intersperse]

theorem mem_field_facts {p : Str × Str} {c : Char}
    (hc : c ∈ quote_plus p.1 ++ '=' :: quote_plus p.2) :
    c.toNat ≤ 0x7E ∧ c ≠ '#' ∧ c ≠ '?' ∧ c ≠ '\t' ∧ c ≠ '\r' ∧ c ≠ '\n' := by
  rcases List.mem_append.mp hc with h | h
  · obtain ⟨h1, _, _, h4, h5, h6, h7, h8⟩ := mem_quote_plus h
    exact ⟨h1, h4, h5, h6, h7, h8⟩
  · rcases List.mem_cons.mp h with rfl | h
    · exact ⟨by decide, by decide, by decide, by decide, by decide, by decide⟩
    · obtain ⟨h1, _, _, h4, h5, h6, h7, h8⟩ := mem_quote_plus h
      exact ⟨h1, h4, h5, h6, h7, h8⟩

theorem mem_urlencode :
    ∀ {d : List (Str × Str)} {c : Char}, c ∈ urlencode d →
      c.toNat ≤ 0x7E ∧ c ≠ '#' ∧ c ≠ '?' ∧ c ≠ '\t' ∧ c ≠ '\r' ∧ c ≠ '\n' := by
  intro d
  induction d with
  | nil => intro c hc; simp [urlencode, List.intercalate] at hc
  | cons kv t ih =>
    intro c hc
    unfold urlencode at hc
    rw [show str "&" = ['&'] from rfl] at hc
    cases t with
    | nil =>
      simp only [List.map_cons, List.map_nil] at hc
      rw [show List.intercalate ['&'] [quote_plus kv.1 ++ '=' :: quote_plus kv.2] =
          quote_plus kv.1 ++ '=' :: quote_plus kv.2 from by
        simp [List.intercalate]] at hc
      exact mem_field_facts hc
    | cons kv2 t2 =>
      rw [show List.intercalate ['&']
            ((kv :: kv2 :: t2).map fun p => quote_plus p.1 ++ '=' :: quote_plus p.2) =
          (quote_plus kv.1 ++ '=' :: quote_plus kv.2) ++ '&' ::
            List.intercalate ['&']
              ((kv2 :: t2).map fun p => quote_plus p.1 ++ '=' :: quote_plus p.2)
          from by simp [List.intercalate, List.intersperse]] at hc
      rcases List.mem_append.mp hc with h | h
      · exact mem_field_facts h
      · rcases List.mem_cons.mp h with rfl | h
        · exact ⟨by decide, by decide, by decide, by decide, by decide, by decide⟩
        · exact ih (by unfold urlencode; rw [show str "&" = ['&'] from rfl]; exact h)

/-! ### urlsplit inversion -/

theorem isSchemeChar_toNat {c : Char} (h : isSchemeChar c = true) :
    (65 ≤ c.toNat ∧ c.toNat ≤ 90) ∨ (97 ≤ c.toNat ∧ c.toNat ≤ 122) ∨
    (48 ≤ c.toNat ∧ c.toNat ≤ 57) ∨ c.toNat = 43 ∨ c.toNat = 45 ∨
    c.toNat = 46 := by
  unfold isSchemeChar at h
  simp only [Bool.or_eq_true, decide_eq_true_iff] at h
  rcases h with (((h | h) | h) | h) | h
  · rcases isAlpha_iff.mp h with h2 | h2
    · exact Or.inl h2
    · exact Or.inr (Or.inl h2)
  · exact Or.inr (Or.inr (Or.inl (isDigit_iff.mp h)))
  · subst h; right; right; right; left; rfl
  · subst h; right; right; right; right; left; rfl
  · subst h; right; right; right; right; right; rfl

theorem toLowerStr_all_schemeChar (s : Str) :
    (toLowerStr s).all isSchemeChar = s.all isSchemeChar := by
  unfold toLowerStr
  induction s with
  | nil => rfl
  | cons c t ih =>
    simp only [List.map_cons, List.all_cons]
    rw [isSchemeChar_toLower, ih]

theorem splitScheme_inv (url : Str) :
    (splitScheme url).1 = [] ∨
    (toLowerStr (splitScheme url).1 = (splitScheme url).1 ∧
     (splitScheme url).1.all isSchemeChar = true ∧
     (∃ c cs, (splitScheme url).1 = c :: cs ∧ c.isAlpha = true)) := by
  unfold splitScheme
  split
  · left; rfl
  · split
    · left; rfl
    · rename_i after un c cs heqp
      split
      · rename_i hca
        simp only [Bool.and_eq_true] at hca
        right
        refine ⟨toLowerStr_idem _, ?_, ?_⟩
        · rw [toLowerStr_all_schemeChar]
          exact hca.2
        · refine ⟨Char.toLower c, toLowerStr cs, rfl, ?_⟩
          rw [isAlpha_toLower]
          exact hca.1
      · left; rfl

theorem splitScheme_snd_sublist (url : Str) :
    List.Sublist (splitScheme url).2 url := by
  unfold splitScheme
  split
  · exact List.Sublist.refl url
  · split
    · exact List.Sublist.refl url
    · rename_i after un c cs heqp
      split
      · have hs := (splitFirst_some heqp).1
        rw [hs]
        exact ((List.sublist_cons_self ':' after).trans
          (List.sublist_append_right _ _)).trans (List.Sublist.refl _)
      · exact List.Sublist.refl url

theorem removeTabsNewlines_mem {s : Str} {c : Char}
    (hc : c ∈ removeTabsNewlines s) : ¬(c = '\t' ∨ c = '\r' ∨ c = '\n') := by
  unfold removeTabsNewlines at hc
  have hf := List.of_mem_filter hc
  simp only [Bool.not_eq_true', Bool.or_eq_false_iff, decide_eq_false_iff_not] at hf
  rintro (rfl | rfl | rfl)
  · exact hf.1.1 rfl
  · exact hf.1.2 rfl
  · exact hf.2 rfl

theorem dropWhile_head_not (p : Char → Bool) :
    ∀ (s : Str), s.dropWhile p = [] ∨
      ∃ c t, s.dropWhile p = c :: t ∧ p c = false := by
  intro s
  induction s with
  | nil => left; rfl
  | cons c t ih =>
    rw [List.dropWhile_cons]
    split
    · exact ih
    · right
      rename_i hpc
      exact ⟨c, t, rfl, by simpa using hpc⟩

theorem splitFirst_sublists {c : Char} {s a b : Str}
    (h : splitFirst c s = some (a, b)) :
    List.Sublist a s ∧ List.Sublist b s := by
  obtain ⟨hs, _⟩ := splitFirst_some h
  rw [hs]
  constructor
  · exact List.sublist_append_left a _
  · exact (List.sublist_cons_self c b).trans (List.sublist_append_right _ _)

theorem splitFirst_fst_head {c : Char} {s a b : Str}
    (h : splitFirst c s = some (a, b)) : a = [] ∨ a.head? = s.head? := by
  obtain ⟨hs, _⟩ := splitFirst_some h
  cases a with
  | nil => left; rfl
  | cons x t => right; rw [hs]; rfl

theorem isNetlocEnd_cases {c : Char} (h : isNetlocEnd c = true) :
    c = '/' ∨ c = '?' ∨ c = '#' := by
  unfold isNetlocEnd at h
  simp only [Bool.or_eq_true, decide_eq_true_iff] at h
  tauto

theorem frag_query_facts {base fr1 frag path query : Str}
    (hfr : splitFirst '#' base = some (fr1, frag) ∨
      (splitFirst '#' base = none ∧ fr1 = base ∧ frag = []))
    (hpq : splitFirst '?' fr1 = some (path, query) ∨
      (splitFirst '?' fr1 = none ∧ path = fr1 ∧ query = [])) :
    '#' ∉ path ∧ '?' ∉ path ∧ '#' ∉ query ∧
    List.Sublist path base ∧ List.Sublist query base ∧ List.Sublist frag base ∧
    (path = [] ∨ path.head? = base.head?) := by
  have hfr1_no : '#' ∉ fr1 := by
    rcases hfr with h | ⟨h, rfl, _⟩
    · exact (splitFirst_some h).2
    · exact splitFirst_eq_none.mp h
  have hfr1_sub : List.Sublist fr1 base := by
    rcases hfr with h | ⟨_, rfl, _⟩
    · exact (splitFirst_sublists h).1
    · exact List.Sublist.refl _
  have hfr1_head : fr1 = [] ∨ fr1.head? = base.head? := by
    rcases hfr with h | ⟨_, rfl, _⟩
    · exact splitFirst_fst_head h
    · right; rfl
  have hfrag_sub : List.Sublist frag base := by
    rcases hfr with h | ⟨_, _, rfl⟩
    · exact (splitFirst_sublists h).2
    · exact List.nil_sublist _
  have hpath_noq : '?' ∉ path := by
    rcases hpq with h | ⟨h, rfl, _⟩
    · exact (splitFirst_some h).2
    · exact splitFirst_eq_none.mp h
  have hpath_sub1 : List.Sublist path fr1 := by
    rcases hpq with h | ⟨_, rfl, _⟩
    · exact (splitFirst_sublists h).1
    · exact List.Sublist.refl _
  have hpath_head : path = [] ∨ path.head? = fr1.head? := by
    rcases hpq with h | ⟨_, rfl, _⟩
    · exact splitFirst_fst_head h
    · right; rfl
  have hquery_sub1 : List.Sublist query fr1 := by
    rcases hpq with h | ⟨_, _, rfl⟩
    · exact (splitFirst_sublists h).2
    · exact List.nil_sublist _
  refine ⟨fun hm => hfr1_no (hpath_sub1.subset hm), hpath_noq,
    fun hm => hfr1_no (hquery_sub1.subset hm),
    hpath_sub1.trans hfr1_sub, hquery_sub1.trans hfr1_sub, hfrag_sub, ?_⟩
  rcases hpath_head with h | h
  · exact Or.inl h
  · rcases hfr1_head with h2 | h2
    · left
      cases path with
      | nil => rfl
      | cons x t =>
        rw [h2] at h
        exact Option.noConfusion h
    · right
      rw [h, h2]

theorem urlsplit_inv_assemble
    {url1 scheme netloc after path query frag : Str}
    (hsc1 : toLowerStr scheme = scheme)
    (hsc2 : scheme.all isSchemeChar = true)
    (hsc3 : scheme = [] ∨ ∃ c cs, scheme = c :: cs ∧ c.isAlpha = true)
    (hnet_mem : ∀ c ∈ netloc, isNetlocEnd c = false)
    (hg1 : (netloc.contains '[' && !netloc.contains ']' ||
        netloc.contains ']' && !netloc.contains '[') = false)
    (hg2 : (netloc.contains '[' && netloc.contains ']' &&
        !check_bracketed_host (bracketedHostOf netloc)) = false)
    (hnet_sub : List.Sublist netloc url1)
    (hafter_sub : List.Sublist after url1)
    (hafter_head : netloc ≠ [] →
      after = [] ∨ ∃ c t, after = c :: t ∧ isNetlocEnd c = true)
    (htab : ∀ c ∈ url1, ¬(c = '\t' ∨ c = '\r' ∨ c = '\n'))
    (hfq : '#' ∉ path ∧ '?' ∉ path ∧ '#' ∉ query ∧
      List.Sublist path after ∧ List.Sublist query after ∧
      List.Sublist frag after ∧ (path = [] ∨ path.head? = after.head?)) :
    toLowerStr scheme = scheme ∧
    scheme.all isSchemeChar = true ∧
    (scheme = [] ∨ ∃ c cs, scheme = c :: cs ∧ c.isAlpha = true) ∧
    (∀ c ∈ netloc, isNetlocEnd c = false) ∧
    (netloc.contains '[' && !netloc.contains ']' ||
       netloc.contains ']' && !netloc.contains '[') = false ∧
    (netloc.contains '[' && netloc.contains ']' &&
       !check_bracketed_host (bracketedHostOf netloc)) = false ∧
    '#' ∉ path ∧ '?' ∉ path ∧ '#' ∉ query ∧
    (∀ c, (c ∈ netloc ∨ c ∈ path ∨ c ∈ query ∨ c ∈ frag) →
       ¬(c = '\t' ∨ c = '\r' ∨ c = '\n')) ∧
    (netloc ≠ [] → path = [] ∨ ∃ t, path = '/' :: t) := by
  obtain ⟨hq1, hq2, hq3, hsub_p, hsub_q, hsub_f, hhead⟩ := hfq
  refine ⟨hsc1, hsc2, hsc3, hnet_mem, hg1, hg2, hq1, hq2, hq3, ?_, ?_⟩
  · intro c hc
    rcases hc with hc | hc | hc | hc
    · exact htab c (hnet_sub.subset hc)
    · exact htab c (hafter_sub.subset (hsub_p.subset hc))
    · exact htab c (hafter_sub.subset (hsub_q.subset hc))
    · exact htab c (hafter_sub.subset (hsub_f.subset hc))
  · intro hne
    rcases hhead with h | h
    · exact Or.inl h
    · rcases hafter_head hne with h2 | ⟨c, t, he, hend⟩
      · left
        cases path with
        | nil => rfl
        | cons x t2 =>
          rw [h2] at h
          exact Option.noConfusion h
      · rw [he] at h
        cases path with
        | nil => exact Or.inl rfl
        | cons x t2 =>
          simp only [List.head?_cons, Option.some.injEq] at h
          subst h
          rcases isNetlocEnd_cases hend with rfl | rfl | rfl
          · exact Or.inr ⟨t2, rfl⟩
          · exact absurd (List.mem_cons_self _ _) hq2
          · exact absurd (List.mem_cons_self _ _) hq1

theorem urlsplit_inv {u : Str} {r : SplitResult} (h : urlsplit u = some r) :
    toLowerStr r.scheme = r.scheme ∧
    r.scheme.all isSchemeChar = true ∧
    (r.scheme = [] ∨ ∃ c cs, r.scheme = c :: cs ∧ c.isAlpha = true) ∧
    (∀ c ∈ r.netloc, isNetlocEnd c = false) ∧
    (r.netloc.contains '[' && !r.netloc.contains ']' ||
       r.netloc.contains ']' && !r.netloc.contains '[') = false ∧
    (r.netloc.contains '[' && r.netloc.contains ']' &&
       !check_bracketed_host (bracketedHostOf r.netloc)) = false ∧
    '#' ∉ r.path ∧ '?' ∉ r.path ∧ '#' ∉ r.query ∧
    (∀ c, (c ∈ r.netloc ∨ c ∈ r.path ∨ c ∈ r.query ∨ c ∈ r.fragment) →
       ¬(c = '\t' ∨ c = '\r' ∨ c = '\n')) ∧
    (r.netloc ≠ [] → r.path = [] ∨ ∃ t, r.path = '/' :: t) := by
  simp only [urlsplit] at h
  generalize hurl1 : removeTabsNewlines (lstripControl u) = url1 at h
  generalize hsp : splitScheme url1 = sp at h
  obtain ⟨scheme, rest⟩ := sp
  have htab : ∀ c ∈ url1, ¬(c = '\t' ∨ c = '\r' ∨ c = '\n') := by
    intro c hc
    apply @removeTabsNewlines_mem (lstripControl u) c
    rw [hurl1]
    exact hc
  have hrest_sub : List.Sublist rest url1 := by
    have hs := splitScheme_snd_sublist url1
    rw [hsp] at hs
    exact hs
  have hsc := splitScheme_inv url1
  rw [hsp] at hsc
  have hsc1 : toLowerStr scheme = scheme := by
    rcases hsc with h0 | h0
    · simp only at h0
      rw [h0]
      rfl
    · exact h0.1
  have hsc2 : scheme.all isSchemeChar = true := by
    rcases hsc with h0 | h0
    · simp only at h0
      rw [h0]
      rfl
    · exact h0.2.1
  have hsc3 : scheme = [] ∨ ∃ c cs, scheme = c :: cs ∧ c.isAlpha = true := by
    rcases hsc with h0 | h0
    · exact Or.inl h0
    · exact Or.inr h0.2.2
  split at h
  · rename_i hpre
    generalize hnl : splitNetloc (List.drop 2 rest) = nl at h
    obtain ⟨netloc, after⟩ := nl
    unfold splitNetloc at hnl
    rw [Prod.mk.injEq] at hnl
    obtain ⟨hn1, hn2⟩ := hnl
    have hnet_mem : ∀ c ∈ netloc, isNetlocEnd c = false := by
      intro c hc
      rw [← hn1] at hc
      have hp := List.mem_takeWhile_imp hc
      simpa using hp
    have hnet_sub : List.Sublist netloc url1 := by
      rw [← hn1]
      exact ((List.takeWhile_sublist _).trans (List.drop_sublist 2 rest)).trans
        hrest_sub
    have hafter_sub : List.Sublist after url1 := by
      rw [← hn2]
      exact ((List.dropWhile_sublist _).trans (List.drop_sublist 2 rest)).trans
        hrest_sub
    have hafter_head : after = [] ∨ ∃ c t, after = c :: t ∧ isNetlocEnd c = true := by
      rcases dropWhile_head_not (fun c => !isNetlocEnd c) (List.drop 2 rest) with
        h0 | ⟨c, t, he, hp⟩
      · left; rw [← hn2]; exact h0
      · right
        exact ⟨c, t, by rw [← hn2]; exact he, by simpa using hp⟩
    split at h
    · exact Option.noConfusion h
    split at h
    · exact Option.noConfusion h
    rename_i hg1 hg2
    split at h
    · rename_i pfr hfr
      split at h
      · rename_i ppq hpq
        obtain ⟨fr1, frag⟩ := ppq
        obtain ⟨path, query⟩ := pfr
        simp only [hpq] at hfr
        injection h with h2
        subst h2
        exact urlsplit_inv_assemble hsc1 hsc2 hsc3 hnet_mem
          (Bool.eq_false_iff.mpr hg1) (Bool.eq_false_iff.mpr hg2)
          hnet_sub hafter_sub (fun _ => hafter_head) htab
          (frag_query_facts (Or.inl hpq) (Or.inl hfr))
      · rename_i hpq
        obtain ⟨path, query⟩ := pfr
        simp only [hpq] at hfr
        injection h with h2
        subst h2
        exact urlsplit_inv_assemble hsc1 hsc2 hsc3 hnet_mem
          (Bool.eq_false_iff.mpr hg1) (Bool.eq_false_iff.mpr hg2)
          hnet_sub hafter_sub (fun _ => hafter_head) htab
          (frag_query_facts (Or.inr ⟨hpq, rfl, rfl⟩) (Or.inl hfr))
    · rename_i hfr
      split at h
      · rename_i ppq hpq
        obtain ⟨fr1, frag⟩ := ppq
        simp only [hpq] at hfr
        injection h with h2
        subst h2
        exact urlsplit_inv_assemble hsc1 hsc2 hsc3 hnet_mem
          (Bool.eq_false_iff.mpr hg1) (Bool.eq_false_iff.mpr hg2)
          hnet_sub hafter_sub (fun _ => hafter_head) htab
          (frag_query_facts (Or.inl hpq) (Or.inr ⟨hfr, rfl, rfl⟩))
      · rename_i hpq
        simp only [hpq] at hfr
        injection h with h2
        subst h2
        exact urlsplit_inv_assemble hsc1 hsc2 hsc3 hnet_mem
          (Bool.eq_false_iff.mpr hg1) (Bool.eq_false_iff.mpr hg2)
          hnet_sub hafter_sub (fun _ => hafter_head) htab
          (frag_query_facts (Or.inr ⟨hpq, rfl, rfl⟩) (Or.inr ⟨hfr, rfl, rfl⟩))
  · rename_i hpre
    split at h
    · exact Option.noConfusion h
    split at h
    · exact Option.noConfusion h
    rename_i hg1 hg2
    split at h
    · rename_i pfr hfr
      split at h
      · rename_i ppq hpq
        obtain ⟨fr1, frag⟩ := ppq
        obtain ⟨path, query⟩ := pfr
        simp only [hpq] at hfr
        injection h with h2
        subst h2
        exact urlsplit_inv_assemble hsc1 hsc2 hsc3
          (fun c hc => absurd hc (List.not_mem_nil c))
          (Bool.eq_false_iff.mpr hg1) (Bool.eq_false_iff.mpr hg2)
          (List.nil_sublist url1) hrest_sub (fun hne => absurd rfl hne) htab
          (frag_query_facts (Or.inl hpq) (Or.inl hfr))
      · rename_i hpq
        obtain ⟨path, query⟩ := pfr
        simp only [hpq] at hfr
        injection h with h2
        subst h2
        exact urlsplit_inv_assemble hsc1 hsc2 hsc3
          (fun c hc => absurd hc (List.not_mem_nil c))
          (Bool.eq_false_iff.mpr hg1) (Bool.eq_false_iff.mpr hg2)
          (List.nil_sublist url1) hrest_sub (fun hne => absurd rfl hne) htab
          (frag_query_facts (Or.inr ⟨hpq, rfl, rfl⟩) (Or.inl hfr))
    · rename_i hfr
      split at h
      · rename_i ppq hpq
        obtain ⟨fr1, frag⟩ := ppq
        simp only [hpq] at hfr
        injection h with h2
        subst h2
        exact urlsplit_inv_assemble hsc1 hsc2 hsc3
          (fun c hc => absurd hc (List.not_mem_nil c))
          (Bool.eq_false_iff.mpr hg1) (Bool.eq_false_iff.mpr hg2)
          (List.nil_sublist url1) hrest_sub (fun hne => absurd rfl hne) htab
          (frag_query_facts (Or.inl hpq) (Or.inr ⟨hfr, rfl, rfl⟩))
      · rename_i hpq
        simp only [hpq] at hfr
        injection h with h2
        subst h2
        exact urlsplit_inv_assemble hsc1 hsc2 hsc3
          (fun c hc => absurd hc (List.not_mem_nil c))
          (Bool.eq_false_iff.mpr hg1) (Bool.eq_false_iff.mpr hg2)
          (List.nil_sublist url1) hrest_sub (fun hne => absurd rfl hne) htab
          (frag_query_facts (Or.inr ⟨hpq, rfl, rfl⟩) (Or.inr ⟨hfr, rfl, rfl⟩))

/-! ### urlunsplit/urlsplit round trip -/

theorem clean_id {s : Str}
    (hhead : s = [] ∨ ∃ c t, s = c :: t ∧ 0x20 < c.toNat)
    (htab : ∀ c ∈ s, ¬(c = '\t' ∨ c = '\r' ∨ c = '\n')) :
    removeTabsNewlines (lstripControl s) = s := by
  have h1 : lstripControl s = s := by
    rcases hhead with rfl | ⟨c, t, rfl, hc⟩
    · rfl
    · unfold lstripControl
      rw [List.dropWhile_cons, if_neg]
      simp only [decide_eq_true_iff]
      omega
  rw [h1]
  unfold removeTabsNewlines
  apply List.filter_eq_self.mpr
  intro c hc
  have h2 := htab c hc
  push_neg at h2
  simp only [Bool.not_eq_true', Bool.or_eq_false_iff, decide_eq_false_iff_not]
  exact ⟨⟨h2.1, h2.2.1⟩, h2.2.2⟩

theorem splitScheme_not_alpha {c : Char} {t : Str} (h : c.isAlpha = false) :
    splitScheme (c :: t) = ([], c :: t) := by
  unfold splitScheme
  split
  · rfl
  · split
    · rfl
    · rename_i after un c2 cs2 heqp
      have hc2 : c2 = c := by
        obtain ⟨hs, _⟩ := splitFirst_some heqp
        have := congrArg List.head? hs
        simpa using this.symm
      subst hc2
      rw [if_neg]
      simp [h]

theorem splitScheme_build {c : Char} {cs rest : Str}
    (halpha : c.isAlpha = true) (hall : (c :: cs).all isSchemeChar = true)
    (hlower : toLowerStr (c :: cs) = c :: cs) :
    splitScheme (c :: (cs ++ ':' :: rest)) = (c :: cs, rest) := by
  have hnc : ':' ∉ (c :: cs) := by
    intro hm
    have hb := List.all_eq_true.mp hall _ hm
    have h2 := isSchemeChar_toNat hb
    rw [show (':' : Char).toNat = 58 from rfl] at h2
    omega
  unfold splitScheme
  rw [show (c :: (cs ++ ':' :: rest)) = (c :: cs) ++ ':' :: rest from rfl]
  rw [splitFirst_append rest hnc]
  show (if c.isAlpha && (c :: cs).all isSchemeChar then
      (toLowerStr (c :: cs), rest) else ([], (c :: cs) ++ ':' :: rest)) =
    (c :: cs, rest)
  rw [if_pos (by simp [halpha, hall])]
  rw [hlower]

theorem splitNetloc_build {netloc rest2 : Str}
    (hnet : ∀ c ∈ netloc, isNetlocEnd c = false)
    (hstop : rest2 = [] ∨ ∃ c t, rest2 = c :: t ∧ isNetlocEnd c = true) :
    splitNetloc (netloc ++ rest2) = (netloc, rest2) := by
  unfold splitNetloc
  have hpos : ∀ c ∈ netloc, (!isNetlocEnd c) = true := by
    intro c hc
    rw [hnet c hc]
    rfl
  rw [Prod.mk.injEq]
  constructor
  · rw [List.takeWhile_append_of_pos hpos]
    rcases hstop with rfl | ⟨c, t, rfl, hc⟩
    · rw [List.takeWhile_nil, List.append_nil]
    · rw [List.takeWhile_cons, if_neg (by rw [hc]; exact fun he => Bool.noConfusion he)]
      rw [List.append_nil]
  · rw [List.dropWhile_append_of_pos hpos]
    rcases hstop with rfl | ⟨c, t, rfl, hc⟩
    · rw [List.dropWhile_nil]
    · rw [List.dropWhile_cons, if_neg (by rw [hc]; exact fun he => Bool.noConfusion he)]

theorem urlsplit_unsplit {scheme netloc path query fragment : Str}
    (hnet_ne : netloc ≠ [])
    (hsc1 : toLowerStr scheme = scheme)
    (hsc2 : scheme.all isSchemeChar = true)
    (hsc3 : scheme = [] ∨ ∃ c cs, scheme = c :: cs ∧ c.isAlpha = true)
    (hnet : ∀ c ∈ netloc, isNetlocEnd c = false)
    (hg1 : (netloc.contains '[' && !netloc.contains ']' ||
       netloc.contains ']' && !netloc.contains '[') = false)
    (hg2 : (netloc.contains '[' && netloc.contains ']' &&
       !check_bracketed_host (bracketedHostOf netloc)) = false)
    (hpath : path = [] ∨ ∃ t, path = '/' :: t)
    (hpath_noh : '#' ∉ path) (hpath_noq : '?' ∉ path)
    (hq_ne : query ≠ []) (hq_noh : '#' ∉ query)
    (hnotab : ∀ c, (c ∈ netloc ∨ c ∈ path ∨ c ∈ query ∨ c ∈ fragment) →
       ¬(c = '\t' ∨ c = '\r' ∨ c = '\n')) :
    urlsplit (urlunsplit scheme netloc path query fragment) =
      some ⟨scheme, netloc, path, query, fragment⟩ := by
  have hschemetab : ∀ c ∈ scheme, ¬(c = '\t' ∨ c = '\r' ∨ c = '\n') := by
    intro c hc
    have hb := List.all_eq_true.mp hsc2 c hc
    have h2 := isSchemeChar_toNat hb
    rintro (rfl | rfl | rfl)
    · rw [show ('\t' : Char).toNat = 9 from rfl] at h2; omega
    · rw [show ('\r' : Char).toNat = 13 from rfl] at h2; omega
    · rw [show ('\n' : Char).toNat = 10 from rfl] at h2; omega
  have hu1cond : ¬(path ≠ [] ∧ path.head? ≠ some '/') := by
    rcases hpath with rfl | ⟨t, rfl⟩
    · simp
    · simp
  have hstop : ∀ (W : Str), path ++ '?' :: W = [] ∨
      ∃ c t, path ++ '?' :: W = c :: t ∧ isNetlocEnd c = true := by
    intro W
    rcases hpath with rfl | ⟨t, rfl⟩
    · right; exact ⟨'?', W, rfl, by decide⟩
    · right; exact ⟨'/', t ++ '?' :: W, rfl, by decide⟩
  have hnoh : '#' ∉ path ++ '?' :: query := by
    intro hm
    rcases List.mem_append.mp hm with hm | hm
    · exact hpath_noh hm
    · rcases List.mem_cons.mp hm with he | hm
      · exact absurd he (by decide)
      · exact hq_noh hm
  have e7 : splitFirst '?' (path ++ '?' :: query) = some (path, query) :=
    splitFirst_append query hpath_noq
  simp only [urlunsplit]
  rw [if_pos (Or.inl hnet_ne), if_neg hu1cond, if_pos hq_ne]
  rcases hsc3 with rfl | ⟨c0, cs, rfl, halpha⟩
  · rw [if_neg (by simp : ¬([] : Str) ≠ [])]
    by_cases hf : fragment = []
    · subst hf
      rw [if_neg (by simp : ¬([] : Str) ≠ [])]
      rw [show str "//" = ['/', '/'] from rfl]
      simp only [List.cons_append, List.nil_append, List.append_assoc]
      have htaball : ∀ c ∈ ('/' :: '/' ::
          (netloc ++ (path ++ '?' :: query)) : Str),
          ¬(c = '\t' ∨ c = '\r' ∨ c = '\n') := by
        intro c hc
        simp only [List.mem_cons, List.mem_append] at hc
        rcases hc with rfl | rfl | (hc | hc | rfl | hc)
        · decide
        · decide
        · exact hnotab c (Or.inl hc)
        · exact hnotab c (Or.inr (Or.inl hc))
        · decide
        · exact hnotab c (Or.inr (Or.inr (Or.inl hc)))
      have e1 := @clean_id ('/' :: '/' :: (netloc ++ (path ++ '?' :: query)))
        (Or.inr ⟨'/', _, rfl, by decide⟩) htaball
      have e2 : splitScheme ('/' :: '/' :: (netloc ++ (path ++ '?' :: query))) =
          ([], '/' :: '/' :: (netloc ++ (path ++ '?' :: query))) :=
        splitScheme_not_alpha (by decide)
      have e5 : splitNetloc (netloc ++ (path ++ '?' :: query)) =
          (netloc, path ++ '?' :: query) :=
        splitNetloc_build hnet (hstop query)
      have e6 : splitFirst '#' (path ++ '?' :: query) = none :=
        splitFirst_eq_none.mpr hnoh
      have e3 : List.isPrefixOf (str "//")
          ('/' :: '/' :: (netloc ++ (path ++ '?' :: query))) = true := by
        simp [List.isPrefixOf, str]
      simp only [urlsplit, e1, e2, e3, e5, e6, e7, hg1, hg2, if_true,
        Bool.false_eq_true, if_false, List.drop_succ_cons, List.drop_zero]
    · rw [if_pos hf]
      rw [show str "//" = ['/', '/'] from rfl]
      simp only [List.cons_append, List.nil_append, List.append_assoc]
      have htaball : ∀ c ∈ ('/' :: '/' ::
          (netloc ++ (path ++ '?' :: (query ++ '#' :: fragment))) : Str),
          ¬(c = '\t' ∨ c = '\r' ∨ c = '\n') := by
        intro c hc
        simp only [List.mem_cons, List.mem_append] at hc
        rcases hc with rfl | rfl | (hc | hc | rfl | hc | rfl | hc)
        · decide
        · decide
        · exact hnotab c (Or.inl hc)
        · exact hnotab c (Or.inr (Or.inl hc))
        · decide
        · exact hnotab c (Or.inr (Or.inr (Or.inl hc)))
        · decide
        · exact hnotab c (Or.inr (Or.inr (Or.inr hc)))
      have e1 := @clean_id
        ('/' :: '/' :: (netloc ++ (path ++ '?' :: (query ++ '#' :: fragment))))
        (Or.inr ⟨'/', _, rfl, by decide⟩) htaball
      have e2 : splitScheme
          ('/' :: '/' :: (netloc ++ (path ++ '?' :: (query ++ '#' :: fragment)))) =
          ([], '/' :: '/' ::
            (netloc ++ (path ++ '?' :: (query ++ '#' :: fragment)))) :=
        splitScheme_not_alpha (by decide)
      have e5 : splitNetloc (netloc ++ (path ++ '?' :: (query ++ '#' :: fragment))) =
          (netloc, path ++ '?' :: (query ++ '#' :: fragment)) :=
        splitNetloc_build hnet (hstop (query ++ '#' :: fragment))
      have e6 : splitFirst '#' (path ++ '?' :: (query ++ '#' :: fragment)) =
          some (path ++ '?' :: query, fragment) := by
        rw [show path ++ '?' :: (query ++ '#' :: fragment) =
            (path ++ '?' :: query) ++ '#' :: fragment from by simp]
        exact splitFirst_append fragment hnoh
      have e3 : List.isPrefixOf (str "//")
          ('/' :: '/' :: (netloc ++ (path ++ '?' :: (query ++ '#' :: fragment)))) =
          true := by
        simp [List.isPrefixOf, str]
      simp only [urlsplit, e1, e2, e3, e5, e6, e7, hg1, hg2, if_true,
        Bool.false_eq_true, if_false, List.drop_succ_cons, List.drop_zero]
  · rw [if_pos (by simp : (c0 :: cs : Str) ≠ [])]
    by_cases hf : fragment = []
    · subst hf
      rw [if_neg (by simp : ¬([] : Str) ≠ [])]
      rw [show str "//" = ['/', '/'] from rfl]
      simp only [List.cons_append, List.nil_append, List.append_assoc]
      have htaball : ∀ c ∈ (c0 ::
          (cs ++ ':' :: '/' :: '/' :: (netloc ++ (path ++ '?' :: query))) : Str),
          ¬(c = '\t' ∨ c = '\r' ∨ c = '\n') := by
        intro c hc
        simp only [List.mem_cons, List.mem_append] at hc
        rcases hc with rfl | (hc | rfl | rfl | rfl | (hc | hc | rfl | hc))
        · exact hschemetab _ (List.mem_cons_self _ _)
        · exact hschemetab c (List.mem_cons_of_mem _ hc)
        · decide
        · decide
        · decide
        · exact hnotab c (Or.inl hc)
        · exact hnotab c (Or.inr (Or.inl hc))
        · decide
        · exact hnotab c (Or.inr (Or.inr (Or.inl hc)))
      have e1 := @clean_id
        (c0 :: (cs ++ ':' :: '/' :: '/' :: (netloc ++ (path ++ '?' :: query))))
        (Or.inr ⟨c0, _, rfl, by
          have := isAlpha_iff.mp halpha
          omega⟩) htaball
      have e2 : splitScheme
          (c0 :: (cs ++ ':' :: '/' :: '/' :: (netloc ++ (path ++ '?' :: query)))) =
          (c0 :: cs, '/' :: '/' :: (netloc ++ (path ++ '?' :: query))) :=
        splitScheme_build halpha hsc2 hsc1
      have e5 : splitNetloc (netloc ++ (path ++ '?' :: query)) =
          (netloc, path ++ '?' :: query) :=
        splitNetloc_build hnet (hstop query)
      have e6 : splitFirst '#' (path ++ '?' :: query) = none :=
        splitFirst_eq_none.mpr hnoh
      have e3 : List.isPrefixOf (str "//")
          ('/' :: '/' :: (netloc ++ (path ++ '?' :: query))) = true := by
        simp [List.isPrefixOf, str]
      simp only [urlsplit, e1, e2, e3, e5, e6, e7, hg1, hg2, if_true,
        Bool.false_eq_true, if_false, List.drop_succ_cons, List.drop_zero]
    · rw [if_pos hf]
      rw [show str "//" = ['/', '/'] from rfl]
      simp only [List.cons_append, List.nil_append, List.append_assoc]
      have htaball : ∀ c ∈ (c0 :: (cs ++ ':' :: '/' :: '/' ::
          (netloc ++ (path ++ '?' :: (query ++ '#' :: fragment)))) : Str),
          ¬(c = '\t' ∨ c = '\r' ∨ c = '\n') := by
        intro c hc
        simp only [List.mem_cons, List.mem_append] at hc
        rcases hc with rfl | (hc | rfl | rfl | rfl | (hc | hc | rfl | hc | rfl | hc))
        · exact hschemetab _ (List.mem_cons_self _ _)
        · exact hschemetab c (List.mem_cons_of_mem _ hc)
        · decide
        · decide
        · decide
        · exact hnotab c (Or.inl hc)
        · exact hnotab c (Or.inr (Or.inl hc))
        · decide
        · exact hnotab c (Or.inr (Or.inr (Or.inl hc)))
        · decide
        · exact hnotab c (Or.inr (Or.inr (Or.inr hc)))
      have e1 := @clean_id
        (c0 :: (cs ++ ':' :: '/' :: '/' ::
          (netloc ++ (path ++ '?' :: (query ++ '#' :: fragment)))))
        (Or.inr ⟨c0, _, rfl, by
          have := isAlpha_iff.mp halpha
          omega⟩) htaball
      have e2 : splitScheme (c0 :: (cs ++ ':' :: '/' :: '/' ::
          (netloc ++ (path ++ '?' :: (query ++ '#' :: fragment))))) =
          (c0 :: cs, '/' :: '/' ::
            (netloc ++ (path ++ '?' :: (query ++ '#' :: fragment)))) :=
        splitScheme_build halpha hsc2 hsc1
      have e5 : splitNetloc (netloc ++ (path ++ '?' :: (query ++ '#' :: fragment))) =
          (netloc, path ++ '?' :: (query ++ '#' :: fragment)) :=
        splitNetloc_build hnet (hstop (query ++ '#' :: fragment))
      have e6 : splitFirst '#' (path ++ '?' :: (query ++ '#' :: fragment)) =
          some (path ++ '?' :: query, fragment) := by
        rw [show path ++ '?' :: (query ++ '#' :: fragment) =
            (path ++ '?' :: query) ++ '#' :: fragment from by simp]
        exact splitFirst_append fragment hnoh
      have e3 : List.isPrefixOf (str "//")
          ('/' :: '/' :: (netloc ++ (path ++ '?' :: (query ++ '#' :: fragment)))) =
          true := by
        simp [List.isPrefixOf, str]
      simp only [urlsplit, e1, e2, e3, e5, e6, e7, hg1, hg2, if_true,
        Bool.false_eq_true, if_false, List.drop_succ_cons, List.drop_zero]

/-! ### Params split stability -/

theorem splitLast_some {c : Char} {s a b : Str} (h : splitLast c s = some (a, b)) :
    s = a ++ c :: b ∧ c ∉ b := by
  unfold splitLast at h
  split at h
  · exact Option.noConfusion h
  · rename_i p ra rb heq
    injection h with h2
    rw [Prod.mk.injEq] at h2
    obtain ⟨ha, hb⟩ := h2
    obtain ⟨hs, hna⟩ := splitFirst_some heq
    have hs2 := congrArg List.reverse hs
    rw [List.reverse_reverse] at hs2
    constructor
    · rw [hs2, ← ha, ← hb]
      simp
    · rw [← hb]
      intro hm
      exact hna (by simpa using hm)

theorem splitLast_append {c : Char} {b : Str} (a : Str) (h : c ∉ b) :
    splitLast c (a ++ c :: b) = some (a, b) := by
  unfold splitLast
  rw [show (a ++ c :: b).reverse = b.reverse ++ c :: a.reverse from by simp]
  rw [splitFirst_append _ (by simpa using h)]
  simp

theorem splitparams_rebuild {t path params : Str}
    (h : splitparams t = (path, params)) (hne : params ≠ []) :
    path ++ ';' :: params = t := by
  unfold splitparams at h
  split at h
  · split at h
    · rw [Prod.mk.injEq] at h
      exact absurd h.2.symm hne
    · rename_i p before seg heqL
      split at h
      · rw [Prod.mk.injEq] at h
        exact absurd h.2.symm hne
      · rename_i q segA segB heqF
        rw [Prod.mk.injEq] at h
        obtain ⟨hp, hq⟩ := h
        obtain ⟨hseq, _⟩ := splitFirst_some heqF
        obtain ⟨ht, _⟩ := splitLast_some heqL
        rw [← hp, ← hq, ht, hseq]
        simp
  · split at h
    · rw [Prod.mk.injEq] at h
      exact absurd h.2.symm hne
    · rename_i q a b heqF
      rw [Prod.mk.injEq] at h
      obtain ⟨hp, hq⟩ := h
      obtain ⟨ht, _⟩ := splitFirst_some heqF
      rw [← hp, ← hq, ht]

theorem splitparams_idem {t path : Str} (h : splitparams t = (path, [])) :
    splitparams path = (path, []) := by
  unfold splitparams at h
  split at h
  · rename_i hslash
    split at h
    · rename_i heqL
      rw [Prod.mk.injEq] at h
      obtain ⟨hp, _⟩ := h
      subst hp
      unfold splitparams
      rw [if_pos hslash]
      simp only [heqL]
    · rename_i p before seg heqL
      split at h
      · rename_i heqF
        rw [Prod.mk.injEq] at h
        obtain ⟨hp, _⟩ := h
        subst hp
        unfold splitparams
        rw [if_pos hslash]
        simp only [heqL, heqF]
      · rename_i q segA segB heqF
        rw [Prod.mk.injEq] at h
        obtain ⟨hp, hq⟩ := h
        subst hq
        subst hp
        obtain ⟨hts, hnsl⟩ := splitLast_some heqL
        obtain ⟨hseq, hnsA⟩ := splitFirst_some heqF
        have hslA : '/' ∉ segA := fun hm =>
          hnsl (by rw [hseq]; exact List.mem_append.mpr (Or.inl hm))
        unfold splitparams
        rw [if_pos (by simp : (before ++ '/' :: segA).contains '/' = true)]
        rw [splitLast_append before hslA]
        simp only [splitFirst_eq_none.mpr hnsA]
  · rename_i hslash
    split at h
    · rename_i heqF
      rw [Prod.mk.injEq] at h
      obtain ⟨hp, _⟩ := h
      subst hp
      unfold splitparams
      rw [if_neg hslash]
      simp only [heqF]
    · rename_i q a b heqF
      rw [Prod.mk.injEq] at h
      obtain ⟨hp, hq⟩ := h
      subst hq
      subst hp
      obtain ⟨hts, hna⟩ := splitFirst_some heqF
      have hsla : ¬(a.contains '/' = true) := by
        intro hc
        apply hslash
        have hm : '/' ∈ a := by simpa using hc
        have hmt : '/' ∈ t := by rw [hts]; exact List.mem_append.mpr (Or.inl hm)
        simpa using hmt
      unfold splitparams
      rw [if_neg hsla]
      simp only [splitFirst_eq_none.mpr hna]

theorem splitParamsGate_stable (scheme t : Str) :
    splitParamsGate scheme
        (joinParams (splitParamsGate scheme t).1 (splitParamsGate scheme t).2) =
      splitParamsGate scheme t := by
  by_cases hcond : (uses_params.contains scheme && t.contains ';') = true
  · have hgate : splitParamsGate scheme t = splitparams t := by
      unfold splitParamsGate
      rw [if_pos hcond]
    have hcond2 := hcond
    rw [Bool.and_eq_true] at hcond2
    obtain ⟨huse, _⟩ := hcond2
    rcases hspp : splitparams t with ⟨path, params⟩
    rw [hgate, hspp]
    by_cases hpe : params = []
    · subst hpe
      rw [show joinParams (path, ([] : Str)).1 (path, []).2 = path from by
        unfold joinParams; simp]
      have hidem := splitparams_idem hspp
      unfold splitParamsGate
      by_cases hps : path.contains ';' = true
      · rw [if_pos (by rw [Bool.and_eq_true]; exact ⟨huse, hps⟩)]
        exact hidem
      · rw [if_neg (by
          rw [Bool.and_eq_true]
          rintro ⟨_, h2⟩
          exact hps h2)]
    · rw [show joinParams (path, params).1 (path, params).2 = path ++ ';' :: params
        from by unfold joinParams; rw [if_pos hpe]]
      rw [splitparams_rebuild hspp hpe]
      rw [hgate, hspp]
  · have hgate : splitParamsGate scheme t = (t, []) := by
      unfold splitParamsGate
      rw [if_neg hcond]
    rw [hgate]
    rw [show joinParams (t, ([] : Str)).1 (t, []).2 = t from by
      unfold joinParams; simp]
    exact hgate

theorem splitparams_subset {t path params : Str}
    (h : splitparams t = (path, params)) :
    (∀ c ∈ path, c ∈ t) ∧ (∀ c ∈ params, c ∈ t) := by
  unfold splitparams at h
  split at h
  · split at h
    · rw [Prod.mk.injEq] at h
      obtain ⟨hp, hq⟩ := h
      subst hp; subst hq
      exact ⟨fun c hc => hc, fun c hc => absurd hc (List.not_mem_nil c)⟩
    · rename_i p before seg heqL
      split at h
      · rw [Prod.mk.injEq] at h
        obtain ⟨hp, hq⟩ := h
        subst hp; subst hq
        exact ⟨fun c hc => hc, fun c hc => absurd hc (List.not_mem_nil c)⟩
      · rename_i q segA segB heqF
        rw [Prod.mk.injEq] at h
        obtain ⟨hp, hq⟩ := h
        subst hp; subst hq
        obtain ⟨ht, _⟩ := splitLast_some heqL
        obtain ⟨hseg, _⟩ := splitFirst_some heqF
        rw [ht, hseg]
        constructor
        · intro c hc
          rcases List.mem_append.mp hc with hc | hc
          · exact List.mem_append.mpr (Or.inl hc)
          · rcases List.mem_cons.mp hc with rfl | hc
            · exact List.mem_append.mpr (Or.inr (List.mem_cons_self _ _))
            · exact List.mem_append.mpr (Or.inr (List.mem_cons_of_mem _
                (List.mem_append.mpr (Or.inl hc))))
        · intro c hc
          exact List.mem_append.mpr (Or.inr (List.mem_cons_of_mem _
            (List.mem_append.mpr (Or.inr (List.mem_cons_of_mem _ hc)))))
  · split at h
    · rw [Prod.mk.injEq] at h
      obtain ⟨hp, hq⟩ := h
      subst hp; subst hq
      exact ⟨fun c hc => hc, fun c hc => absurd hc (List.not_mem_nil c)⟩
    · rename_i q a b heqF
      rw [Prod.mk.injEq] at h
      obtain ⟨hp, hq⟩ := h
      subst hp; subst hq
      obtain ⟨ht, _⟩ := splitFirst_some heqF
      rw [ht]
      constructor
      · intro c hc
        exact List.mem_append.mpr (Or.inl hc)
      · intro c hc
        exact List.mem_append.mpr (Or.inr (List.mem_cons_of_mem _ hc))

theorem splitparams_head {t path params : Str}
    (h : splitparams t = (path, params)) :
    path = t ∨ path = [] ∨ path.head? = t.head? := by
  unfold splitparams at h
  split at h
  · split at h
    · rw [Prod.mk.injEq] at h
      exact Or.inl h.1.symm
    · rename_i p before seg heqL
      split at h
      · rw [Prod.mk.injEq] at h
        exact Or.inl h.1.symm
      · rename_i q segA segB heqF
        rw [Prod.mk.injEq] at h
        obtain ⟨hp, _⟩ := h
        obtain ⟨ht, _⟩ := splitLast_some heqL
        right; right
        rw [← hp, ht]
        cases before <;> rfl
  · split at h
    · rw [Prod.mk.injEq] at h
      exact Or.inl h.1.symm
    · rename_i q a b heqF
      rw [Prod.mk.injEq] at h
      obtain ⟨hp, _⟩ := h
      obtain ⟨ht, _⟩ := splitFirst_some heqF
      cases a with
      | nil => right; left; exact hp.symm
      | cons d t2 =>
        right; right
        rw [← hp, ht]
        rfl

theorem splitParamsGate_subset (scheme t : Str) :
    (∀ c ∈ (splitParamsGate scheme t).1, c ∈ t) ∧
    (∀ c ∈ (splitParamsGate scheme t).2, c ∈ t) := by
  unfold splitParamsGate
  split
  · rcases hsp : splitparams t with ⟨path, params⟩
    exact splitparams_subset hsp
  · exact ⟨fun c hc => hc, fun c hc => absurd hc (List.not_mem_nil c)⟩

theorem splitParamsGate_head (scheme t : Str) :
    (splitParamsGate scheme t).1 = t ∨ (splitParamsGate scheme t).1 = [] ∨
    (splitParamsGate scheme t).1.head? = t.head? := by
  unfold splitParamsGate
  split
  · rcases hsp : splitparams t with ⟨path, params⟩
    exact splitparams_head hsp
  · exact Or.inl rfl

theorem addMissingParams_fixpoint :
    ∀ (active flat : List (Str × Str)),
      (∀ kv ∈ active, dictContains flat kv.1 = true) →
      addMissingParams flat active = flat := by
  intro active
  induction active with
  | nil => intro flat _; rfl
  | cons kv rest ih =>
    intro flat h
    rw [addMissingParams, if_pos (h kv (List.mem_cons_self _ _))]
    exact ih flat (fun kv2 hm => h kv2 (List.mem_cons_of_mem _ hm))

theorem urlunsplit_ne_nil {scheme netloc path query fragment : Str}
    (hnet : netloc ≠ []) :
    urlunsplit scheme netloc path query fragment ≠ [] := by
  unfold urlunsplit
  rw [if_pos (Or.inl hnet)]
  rw [show str "//" = ['/', '/'] from rfl]
  repeat' split
  all_goals simp

theorem splitParamsGate_nil (scheme : Str) :
    splitParamsGate scheme ([] : Str) = ([], []) := by
  unfold splitParamsGate
  rw [if_neg (by rw [Bool.and_eq_true]; rintro ⟨_, h2⟩; simp at h2)]

theorem splitParamsGate_head_slash {scheme t0 : Str} :
    (splitParamsGate scheme ('/' :: t0)).1 = '/' :: t0 ∨
    ∃ u, (splitParamsGate scheme ('/' :: t0)).1 = '/' :: u := by
  unfold splitParamsGate
  split
  · rcases hsp : splitparams ('/' :: t0) with ⟨path, params⟩
    unfold splitparams at hsp
    rw [if_pos (by simp)] at hsp
    split at hsp
    · rw [Prod.mk.injEq] at hsp
      exact Or.inl hsp.1.symm
    · rename_i p before seg heqL
      split at hsp
      · rw [Prod.mk.injEq] at hsp
        exact Or.inl hsp.1.symm
      · rename_i q segA segB heqF
        rw [Prod.mk.injEq] at hsp
        obtain ⟨hp, _⟩ := hsp
        obtain ⟨ht2, _⟩ := splitLast_some heqL
        right
        cases before with
        | nil => exact ⟨segA, by rw [← hp]; rfl⟩
        | cons d rest =>
          have hd : d = '/' := by
            have h3 := congrArg List.head? ht2
            simpa using h3.symm
          subst hd
          exact ⟨rest ++ '/' :: segA, by rw [← hp]; rfl⟩
  · exact Or.inl rfl

/-- C3: rewriting an already-rewritten URL is a no-op — `add_affiliate_params`
    is idempotent: on every input, applying it twice gives the same string as
    applying it once (spec 9.2, 5.3). -/
theorem claim_C3 (env : Env) (url : Str) :
    add_affiliate_params env (add_affiliate_params env url) =
      add_affiliate_params env url := by
  by_cases h0 : add_affiliate_params env url = url
  · rw [h0]
    exact h0
  · have hne : url ≠ [] := by
      intro he
      apply h0
      subst he
      rfl
    cases hdom : get_domain_from_url url with
    | none =>
      exfalso
      apply h0
      simp only [add_affiliate_params]
      rw [if_neg hne]
      simp only [hdom]
    | some domain =>
    cases hcfg : get_affiliate_config env domain with
    | none =>
      exfalso
      apply h0
      simp only [add_affiliate_params]
      rw [if_neg hne]
      simp only [hdom, hcfg]
    | some cfg =>
    by_cases hact : filterActive cfg = []
    · exfalso
      apply h0
      simp only [add_affiliate_params]
      rw [if_neg hne]
      simp only [hdom, hcfg, if_pos hact]
    cases hpar : urlparse url with
    | none =>
      exfalso
      apply h0
      simp only [add_affiliate_params]
      rw [if_neg hne]
      simp only [hdom, hcfg, if_neg hact, hpar]
    | some parsed =>
    have hres : add_affiliate_params env url =
        urlunparse ⟨parsed.scheme, parsed.netloc, parsed.path, parsed.params,
          urlencode (addMissingParams
            (flat_params_of (parse_qs parsed.query)) (filterActive cfg)),
          parsed.fragment⟩ := by
      simp only [add_affiliate_params]
      rw [if_neg hne]
      simp only [hdom, hcfg, if_neg hact, hpar]
    rw [hres]
    obtain ⟨r, husp, hpr⟩ : ∃ r, urlsplit url = some r ∧
        parsed = ⟨r.scheme, r.netloc, (splitParamsGate r.scheme r.path).1,
          (splitParamsGate r.scheme r.path).2, r.query, r.fragment⟩ := by
      unfold urlparse at hpar
      cases husp : urlsplit url with
      | none =>
        rw [husp] at hpar
        exact Option.noConfusion hpar
      | some r =>
        rw [husp] at hpar
        simp only [Option.map_some'] at hpar
        injection hpar with h2
        exact ⟨r, rfl, h2.symm⟩
    subst hpr
    have hdom2 : (if toLowerStr r.netloc = [] then none
        else some (if (str "www.").isPrefixOf (toLowerStr r.netloc)
          then (toLowerStr r.netloc).drop 4 else toLowerStr r.netloc)) =
        some domain := by
      have h3 := hdom
      simp only [get_domain_from_url, if_neg hne, hpar] at h3
      exact h3
    have hnlne : toLowerStr r.netloc ≠ [] := by
      intro he
      rw [if_pos he] at hdom2
      exact Option.noConfusion hdom2
    have hnetne : r.netloc ≠ [] := by
      intro he
      apply hnlne
      rw [he]
      rfl
    obtain ⟨i1, i2, i3, i4, i5, i6, i7, i8, i9, i10, i11⟩ := urlsplit_inv husp
    have hjsub := splitParamsGate_subset r.scheme r.path
    have hjmem : ∀ c ∈ joinParams (splitParamsGate r.scheme r.path).1
        (splitParamsGate r.scheme r.path).2, c ∈ r.path ∨ c = ';' := by
      intro c hc
      unfold joinParams at hc
      split at hc
      · rcases List.mem_append.mp hc with hc | hc
        · exact Or.inl (hjsub.1 c hc)
        · rcases List.mem_cons.mp hc with rfl | hc
          · exact Or.inr rfl
          · exact Or.inl (hjsub.2 c hc)
      · exact Or.inl (hjsub.1 c hc)
    have hjnoh : '#' ∉ joinParams (splitParamsGate r.scheme r.path).1
        (splitParamsGate r.scheme r.path).2 := by
      intro hm
      rcases hjmem _ hm with h | h
      · exact i7 h
      · exact absurd h (by decide)
    have hjnoq : '?' ∉ joinParams (splitParamsGate r.scheme r.path).1
        (splitParamsGate r.scheme r.path).2 := by
      intro hm
      rcases hjmem _ hm with h | h
      · exact i8 h
      · exact absurd h (by decide)
    have hjhead : joinParams (splitParamsGate r.scheme r.path).1
        (splitParamsGate r.scheme r.path).2 = [] ∨
        ∃ t0, joinParams (splitParamsGate r.scheme r.path).1
          (splitParamsGate r.scheme r.path).2 = '/' :: t0 := by
      rcases i11 hnetne with hp | ⟨t0, hp⟩
      · left
        rw [hp, splitParamsGate_nil]
        rfl
      · rw [hp]
        rcases @splitParamsGate_head_slash r.scheme t0 with
          he | ⟨u, he⟩
        · unfold joinParams
          split
          · right
            exact ⟨_, by rw [he]; rfl⟩
          · right
            exact ⟨t0, by rw [he]⟩
        · unfold joinParams
          split
          · right
            exact ⟨_, by rw [he]; rfl⟩
          · right
            exact ⟨u, he⟩
    have hjtab : ∀ c ∈ joinParams (splitParamsGate r.scheme r.path).1
        (splitParamsGate r.scheme r.path).2,
        ¬(c = '\t' ∨ c = '\r' ∨ c = '\n') := by
      intro c hc
      rcases hjmem c hc with h | rfl
      · exact i10 c (Or.inr (Or.inl h))
      · decide
    have hflat2ne : addMissingParams
        (flat_params_of (parse_qs r.query)) (filterActive cfg) ≠ [] :=
      addMissingParams_ne_nil (filterActive cfg)
        (flat_params_of (parse_qs r.query)) (Or.inr hact)
    have hqne : urlencode (addMissingParams
        (flat_params_of (parse_qs r.query)) (filterActive cfg)) ≠ [] :=
      urlencode_ne_nil hflat2ne
    have hqnoh : '#' ∉ urlencode (addMissingParams
        (flat_params_of (parse_qs r.query)) (filterActive cfg)) := by
      intro hm
      exact (mem_urlencode hm).2.1 rfl
    have hqtab : ∀ c ∈ urlencode (addMissingParams
        (flat_params_of (parse_qs r.query)) (filterActive cfg)),
        ¬(c = '\t' ∨ c = '\r' ∨ c = '\n') := by
      intro c hc
      obtain ⟨_, _, _, h4, h5, h6⟩ := mem_urlencode hc
      rintro (rfl | rfl | rfl)
      · exact h4 rfl
      · exact h5 rfl
      · exact h6 rfl
    have hC := @urlsplit_unsplit r.scheme r.netloc
      (joinParams (splitParamsGate r.scheme r.path).1
        (splitParamsGate r.scheme r.path).2)
      (urlencode (addMissingParams
        (flat_params_of (parse_qs r.query)) (filterActive cfg)))
      r.fragment
      hnetne i1 i2 i3 i4 i5 i6 hjhead hjnoh hjnoq hqne hqnoh
      (by
        intro c hc
        rcases hc with hc | hc | hc | hc
        · exact i10 c (Or.inl hc)
        · exact hjtab c hc
        · exact hqtab c hc
        · exact i10 c (Or.inr (Or.inr (Or.inr hc))))
    have hpar2 : urlparse (urlunsplit r.scheme r.netloc
        (joinParams (splitParamsGate r.scheme r.path).1
          (splitParamsGate r.scheme r.path).2)
        (urlencode (addMissingParams
          (flat_params_of (parse_qs r.query)) (filterActive cfg)))
        r.fragment) =
        some ⟨r.scheme, r.netloc, (splitParamsGate r.scheme r.path).1,
          (splitParamsGate r.scheme r.path).2,
          urlencode (addMissingParams
            (flat_params_of (parse_qs r.query)) (filterActive cfg)),
          r.fragment⟩ := by
      unfold urlparse
      rw [hC]
      simp only [Option.map_some']
      rw [splitParamsGate_stable r.scheme r.path]
    have hu'ne : urlunsplit r.scheme r.netloc
        (joinParams (splitParamsGate r.scheme r.path).1
          (splitParamsGate r.scheme r.path).2)
        (urlencode (addMissingParams
          (flat_params_of (parse_qs r.query)) (filterActive cfg)))
        r.fragment ≠ [] := urlunsplit_ne_nil hnetne
    have hdom' : get_domain_from_url (urlunsplit r.scheme r.netloc
        (joinParams (splitParamsGate r.scheme r.path).1
          (splitParamsGate r.scheme r.path).2)
        (urlencode (addMissingParams
          (flat_params_of (parse_qs r.query)) (filterActive cfg)))
        r.fragment) = some domain := by
      simp only [get_domain_from_url, if_neg hu'ne, hpar2]
      exact hdom2
    have hnodup : ((addMissingParams (flat_params_of (parse_qs r.query))
        (filterActive cfg)).map Prod.fst).Nodup := by
      apply addMissingParams_keys_nodup
      rw [flat_parse_qs r.query]
      exact keepFirstByKey_keys_nodup _
    have hflat' : flat_params_of (parse_qs (urlencode (addMissingParams
        (flat_params_of (parse_qs r.query)) (filterActive cfg)))) =
        addMissingParams (flat_params_of (parse_qs r.query)) (filterActive cfg) :=
      flat_roundtrip hnodup
    have hfix : addMissingParams (addMissingParams
        (flat_params_of (parse_qs r.query)) (filterActive cfg))
        (filterActive cfg) =
        addMissingParams (flat_params_of (parse_qs r.query)) (filterActive cfg) :=
      addMissingParams_fixpoint (filterActive cfg) _
        (fun kv hm => addMissingParams_contains_active (filterActive cfg)
          (flat_params_of (parse_qs r.query)) kv hm)
    show add_affiliate_params env (urlunsplit r.scheme r.netloc
        (joinParams (splitParamsGate r.scheme r.path).1
          (splitParamsGate r.scheme r.path).2)
        (urlencode (addMissingParams
          (flat_params_of (parse_qs r.query)) (filterActive cfg)))
        r.fragment) = _
    simp only [add_affiliate_params]
    rw [if_neg hu'ne]
    simp only [hdom', hcfg, if_neg hact, hpar2, hflat', hfix]
